import Mathlib

/-!
# Verification of the Suno prompt-generator core logic

Shallow embedding of the string-processing core of the repository
(`src/generator.py`, `src/cache.py`, `src/storage.py`,
`src/experimental_mood/refiner.py`) and proofs about it.

Strings are modelled as `List Char` (`Str` below); Python text operations
(`strip`, `split`, `join`, `rfind`, slicing, `in`) are given explicit
executable definitions mirroring their Python semantics on ASCII text.
-/

set_option maxHeartbeats 1000000
set_option maxRecDepth 100000

abbrev Str := List Char

/-- Python `str.strip()` whitespace class (ASCII part). -/
def isPySpace (c : Char) : Bool :=
  c = ' ' || c = '\t' || c = '\n' || c = '\r' || c = '\x0b' || c = '\x0c'

/-- Strip characters satisfying `p` from the left end. -/
def lstripP (p : Char → Bool) (l : Str) : Str := l.dropWhile p

/-- Strip characters satisfying `p` from the right end. -/
def rstripP (p : Char → Bool) (l : Str) : Str := (l.reverse.dropWhile p).reverse

/-- Python `str.strip()` (both ends, default whitespace). -/
def pyStrip (l : Str) : Str := rstripP isPySpace (lstripP isPySpace l)

/-- Python `str.strip(chars)` for an explicit character class. -/
def pyStripChars (p : Char → Bool) (l : Str) : Str := rstripP p (lstripP p l)

/-- Python `str.lower()` (ASCII). -/
def lowerStr (l : Str) : Str := l.map Char.toLower

/-! ## History store (`src/storage.py`) -/

/-- `delete_song` from `src/storage.py`: the stored history after the call.
`songs.pop(index)` happens (and the file is rewritten) only under the
`0 <= index < len(songs)` guard; otherwise the stored list is untouched. -/
def delete_song {α : Type} (index : Int) (songs : List α) : List α :=
  if 0 ≤ index ∧ index < songs.length then
    songs.take index.toNat ++ songs.drop (index.toNat + 1)
  else
    songs

/-! ## Prompt cache (`src/cache.py`) -/

/-- Constant `MAX_CACHE_SIZE` from `src/cache.py`. -/
def MAX_CACHE_SIZE : Nat := 500

/-- Python insertion-ordered dict as an association list. -/
abbrev PyDict (β : Type) := List (Str × β)

/-- Keys of a dict, in insertion order. -/
def dictKeys {β : Type} (d : PyDict β) : List Str := d.map Prod.fst

/-- Python `key in dict`. -/
def dictMem {β : Type} (d : PyDict β) (k : Str) : Bool := d.any (fun p => p.1 = k)

/-- Python `dict.get(key)` / `dict[key]` lookup (first matching entry). -/
def dictGet {β : Type} (d : PyDict β) (k : Str) : Option β :=
  match d with
  | [] => none
  | p :: rest => if p.1 = k then some p.2 else dictGet rest k

/-- Python `dict[key] = value`: update in place if present (position kept),
else append at the end. -/
def dictSet {β : Type} (d : PyDict β) (k : Str) (v : β) : PyDict β :=
  if dictMem d k then d.map (fun p => if p.1 = k then (p.1, v) else p)
  else d ++ [(k, v)]

/-- `_save_cache` from `src/cache.py`: trim to the most recent
`MAX_CACHE_SIZE` entries (`dict(items[-MAX_CACHE_SIZE:])`) before writing. -/
def save_cache (cache : PyDict Str) : PyDict Str :=
  if MAX_CACHE_SIZE < cache.length then cache.drop (cache.length - MAX_CACHE_SIZE)
  else cache

/-- `set_cached` from `src/cache.py`: the persisted cache after the call. -/
def set_cached (cache : PyDict Str) (key : Str) (prompt : Str) : PyDict Str :=
  save_cache (dictSet cache key prompt)

/-! ## Style length cap (`src/generator.py`, `generate_outputs` tail) -/

/-- Constant `MAX_STYLE_LENGTH` from `src/generator.py`. -/
def MAX_STYLE_LENGTH : Nat := 1000

/-- Start indices (ascending) at which the two-character separator `", "`
occurs in the text; `i` is the index of the next character. -/
def sepIdxs : Str → Nat → List Nat
  | [], _ => []
  | c :: rest, i =>
    if c = ',' ∧ rest.head? = some ' ' then i :: sepIdxs rest (i + 1)
    else sepIdxs rest (i + 1)

/-- Python `truncated.rfind(", ")`: the start index of the last occurrence
(`none` for Python's `-1`). -/
def rfindSep (t : Str) : Option Nat := (sepIdxs t 0).getLast?

/-- The final truncation step of `generate_outputs` in `src/generator.py`
(lines 238-245): cap the Style output at `MAX_STYLE_LENGTH`, preferring the
last `", "` boundary strictly past the midpoint, else `rstrip(", ")`. -/
def truncateStyle (style_output : Str) : Str :=
  if style_output.length ≤ MAX_STYLE_LENGTH then style_output
  else
    let truncated := style_output.take MAX_STYLE_LENGTH
    match rfindSep truncated with
    | some last_comma =>
      if MAX_STYLE_LENGTH / 2 < last_comma then truncated.take last_comma
      else rstripP (fun c => c = ',' || c = ' ') truncated
    | none => rstripP (fun c => c = ',' || c = ' ') truncated

/-- The separator `", "` occurs in `t` starting at index `j`. -/
def sepAt (t : Str) (j : Nat) : Prop := (t.drop j).take 2 = [',', ' ']

instance (t : Str) (j : Nat) : Decidable (sepAt t j) := by
  unfold sepAt; infer_instance

/-! ## Refiner marker extraction (`src/experimental_mood/refiner.py`) -/

/-- Python `needle in haystack` (substring containment). -/
def containsSub (needle hay : Str) : Bool := hay.tails.any (fun t => needle.isPrefixOf t)

/-- Python `hay.split(sep)` for a non-empty separator, via fuel on the
haystack length. -/
def splitSubFuel (sep : Str) : Nat → Str → List Str
  | 0, hay => [hay]
  | _ + 1, [] => [[]]
  | fuel + 1, c :: rest =>
    if sep.isPrefixOf (c :: rest) then
      match splitSubFuel sep fuel ((c :: rest).drop sep.length) with
      | [] => [[]]
      | piece :: more => [] :: piece :: more
    else
      match splitSubFuel sep fuel rest with
      | [] => [[c]]
      | piece :: more => (c :: piece) :: more

/-- Python `hay.split(sep)` (non-empty `sep`). -/
def splitSub (sep hay : Str) : List Str := splitSubFuel sep hay.length hay

/-- The character class of `.strip('`"\x27 \n')` in
`run_refinement_agent` (backtick, double quote, single quote, space, newline). -/
def isMarkdownJunk (c : Char) : Bool :=
  c = '`' || c = '"' || c = '\x27' || c = ' ' || c = '\n'

/-- Marker `"REFINED STYLE:"`. -/
def refinedStyleMarker : Str := "REFINED STYLE:".toList

/-- Marker `"REFINED LYRICS:"`. -/
def refinedLyricsMarker : Str := "REFINED LYRICS:".toList

/-- The marker-extraction tail of `run_refinement_agent` in
`src/experimental_mood/refiner.py` (lines 283-301): recover
`(refined_style, refined_lyrics)` from the final model response, defaulting
to the original inputs, then strip markdown junk from both. -/
def run_refinement_agent_extract (final_response style_text lyrics_text : Str) :
    Str × Str :=
  let p :=
    if containsSub refinedStyleMarker final_response then
      match splitSub refinedStyleMarker final_response with
      | _ :: style_part :: _ =>
        if containsSub refinedLyricsMarker style_part then
          (pyStrip ((splitSub refinedLyricsMarker style_part).getD 0 []),
           pyStrip ((splitSub refinedLyricsMarker style_part).getD 1 []))
        else (pyStrip style_part, lyrics_text)
      | _ => (style_text, lyrics_text)
    else (style_text, lyrics_text)
  (pyStripChars isMarkdownJunk p.1, pyStripChars isMarkdownJunk p.2)

/-! ## Helper lemmas -/

lemma length_rstripP_le (p : Char → Bool) (l : Str) : (rstripP p l).length ≤ l.length := by
  unfold rstripP
  calc ((l.reverse.dropWhile p).reverse).length
      = (l.reverse.dropWhile p).length := List.length_reverse _
    _ ≤ l.reverse.length := (List.dropWhile_sublist p).length_le
    _ = l.length := List.length_reverse l

lemma dictMem_false_of_drop {β : Type} (d : PyDict β) (k : Str) (n : Nat)
    (h : dictMem d k = false) : dictMem (d.drop n) k = false := by
  unfold dictMem at *
  rw [List.any_eq_false] at *
  intro x hx
  exact h x ((List.drop_subset n d) hx)

lemma dictGet_append_of_not_mem {β : Type} (d e : PyDict β) (k : Str)
    (h : dictMem d k = false) : dictGet (d ++ e) k = dictGet e k := by
  induction d with
  | nil => rfl
  | cons p rest ih =>
    unfold dictMem at h
    simp only [List.any_cons, Bool.or_eq_false_iff, decide_eq_false_iff_not] at h
    simp only [List.cons_append, dictGet, if_neg h.1]
    apply ih
    unfold dictMem
    rw [List.any_eq_false]
    intro x hx
    have := (List.any_eq_false.mp h.2) x hx
    simpa using this

lemma dictGet_set_self {β : Type} (d : PyDict β) (k : Str) (v : β)
    (h : dictMem d k = true) :
    dictGet (d.map (fun p => if p.1 = k then (p.1, v) else p)) k = some v := by
  induction d with
  | nil => simp [dictMem] at h
  | cons p rest ih =>
    by_cases hp : p.1 = k
    · simp [dictGet, hp]
    · simp only [List.map_cons, if_neg hp, dictGet, if_neg hp]
      apply ih
      unfold dictMem at h ⊢
      simp only [List.any_cons] at h
      rcases Bool.or_eq_true_iff.mp h with h1 | h2
      · exact absurd (of_decide_eq_true h1) hp
      · exact h2

/-! ## C10 — delete_song -/

/-- C10: `delete_song` removes exactly the record at `index` (in-range case:
the length drops by one, records before `index` keep their positions, records
after shift down by one), and an out-of-range `index` (negative or `≥ length`)
leaves the stored history unchanged. -/
theorem delete_song_spec {α : Type} (songs : List α) (index : Int) :
    (0 ≤ index → index < songs.length →
      (delete_song index songs).length = songs.length - 1 ∧
      (∀ j : Nat, j < index.toNat → (delete_song index songs)[j]? = songs[j]?) ∧
      (∀ j : Nat, index.toNat ≤ j → (delete_song index songs)[j]? = songs[j + 1]?)) ∧
    ((index < 0 ∨ (songs.length : Int) ≤ index) → delete_song index songs = songs) := by
  constructor
  · intro h0 hlt
    have hidx : index.toNat < songs.length := by omega
    have hdef : delete_song index songs =
        songs.take index.toNat ++ songs.drop (index.toNat + 1) := by
      unfold delete_song
      rw [if_pos ⟨h0, hlt⟩]
    have hTakeLen : (songs.take index.toNat).length = index.toNat :=
      List.length_take_of_le (by omega)
    refine ⟨?_, ?_, ?_⟩
    · rw [hdef]
      simp only [List.length_append, List.length_take, List.length_drop]
      omega
    · intro j hj
      rw [hdef, List.getElem?_append, if_pos (by rw [hTakeLen]; omega)]
      simp [List.getElem?_take, hj]
    · intro j hj
      rw [hdef, List.getElem?_append_right (by omega), List.getElem?_drop]
      congr 1
      omega
  · intro h
    unfold delete_song
    rw [if_neg]
    intro ⟨h1, h2⟩
    omega

/-- Witness for C10 at a concrete history and index. -/
theorem delete_song_spec_witness :
    delete_song 1 [10, 20, 30] = [10, 30] ∧ delete_song 5 [10, 20, 30] = [10, 20, 30] := by
  have h1 := (delete_song_spec [10, 20, 30] 1).1 (by decide) (by decide)
  have h2 := (delete_song_spec [10, 20, 30] 5).2 (by decide)
  exact ⟨by decide, h2⟩

/-! ## C9 — set_cached / _save_cache -/

/-- Concrete 501-entry prior cache whose first entry has the empty key. -/
def c9cache : PyDict Str := (List.range 501).map (fun i => (List.replicate i 'a', []))

/-- C9 counterexample: with a (externally grown) prior cache of 501 entries
whose oldest entry is the key being set, `set_cached` evicts the entry that
was just set, so "the one just set is retained" fails for arbitrary prior
cache contents. -/
theorem set_cached_counterexample :
    c9cache.length = 501 ∧
    dictGet c9cache [] = some [] ∧
    dictGet (set_cached c9cache [] ['v']) [] = none := by
  refine ⟨by decide, by decide, by decide⟩

/-- C9 (amended): `set_cached` always leaves at most `MAX_CACHE_SIZE = 500`
entries; when eviction occurs the evicted entries are an initial (oldest)
segment of the insertion order; and whenever the prior cache held at most
500 entries (the bound `_save_cache` itself maintains), the just-set entry is
retained with its new value. -/
theorem set_cached_spec (cache : PyDict Str) (key prompt : Str) :
    (set_cached cache key prompt).length ≤ MAX_CACHE_SIZE ∧
    (MAX_CACHE_SIZE < (dictSet cache key prompt).length →
      ∃ evicted, dictSet cache key prompt = evicted ++ set_cached cache key prompt ∧
        evicted.length = (dictSet cache key prompt).length - MAX_CACHE_SIZE) ∧
    (cache.length ≤ MAX_CACHE_SIZE →
      dictGet (set_cached cache key prompt) key = some prompt) := by
  refine ⟨?_, ?_, ?_⟩
  · unfold set_cached save_cache
    by_cases h : MAX_CACHE_SIZE < (dictSet cache key prompt).length
    · rw [if_pos h]
      simp only [List.length_drop]
      omega
    · rw [if_neg h]
      omega
  · intro h
    refine ⟨(dictSet cache key prompt).take ((dictSet cache key prompt).length - MAX_CACHE_SIZE), ?_, ?_⟩
    · unfold set_cached save_cache
      rw [if_pos h, List.take_append_drop]
    · exact List.length_take_of_le (by omega)
  · intro hle
    unfold set_cached save_cache dictSet
    by_cases hmem : dictMem cache key = true
    · rw [if_pos hmem]
      have hlen : (cache.map (fun p => if p.1 = key then (p.1, prompt) else p)).length =
          cache.length := by simp
      rw [if_neg (by rw [hlen]; omega)]
      exact dictGet_set_self cache key prompt hmem
    · rw [if_neg (by simp [hmem] : ¬dictMem cache key = true)]
      by_cases hfull : cache.length = MAX_CACHE_SIZE
      · have hlen : (cache ++ [(key, prompt)]).length = MAX_CACHE_SIZE + 1 := by
          simp [hfull]
        rw [if_pos (by omega), hlen]
        have hdrop : (cache ++ [(key, prompt)]).drop (MAX_CACHE_SIZE + 1 - MAX_CACHE_SIZE) =
            cache.drop 1 ++ [(key, prompt)] := by
          have : MAX_CACHE_SIZE + 1 - MAX_CACHE_SIZE = 1 := by omega
          rw [this, List.drop_append_of_le_length (by rw [hfull]; decide)]
        rw [hdrop, dictGet_append_of_not_mem _ _ _
          (dictMem_false_of_drop cache key 1 (by simpa using hmem))]
        simp [dictGet]
      · have hlen : (cache ++ [(key, prompt)]).length = cache.length + 1 := by simp
        rw [if_neg (by omega)]
        rw [dictGet_append_of_not_mem cache [(key, prompt)] key (by simpa using hmem)]
        simp [dictGet]

/-- Witness for C9 (amended) at a concrete cache. -/
theorem set_cached_spec_witness :
    dictGet (set_cached [(['a'], ['x'])] ['k'] ['v']) ['k'] = some ['v'] :=
  (set_cached_spec [(['a'], ['x'])] ['k'] ['v']).2.2 (by decide)

/-! ## C4 — refiner fallback -/

/-- C4 (amended): when the final response contains neither marker, the
refiner extraction returns the original pair with each component stripped of
leading/trailing backtick, quote, space and newline characters — so the pair
is returned unchanged exactly when neither component starts or ends with
such a character. -/
theorem run_refinement_agent_extract_fallback
    (final_response style_text lyrics_text : Str)
    (h1 : containsSub refinedStyleMarker final_response = false)
    (h2 : containsSub refinedLyricsMarker final_response = false) :
    run_refinement_agent_extract final_response style_text lyrics_text =
      (pyStripChars isMarkdownJunk style_text, pyStripChars isMarkdownJunk lyrics_text) := by
  unfold run_refinement_agent_extract
  rw [h1]
  simp

/-- Witness for C4 (amended) at concrete inputs. -/
theorem run_refinement_agent_extract_fallback_witness :
    run_refinement_agent_extract "ok".toList "jazz".toList "la".toList =
      ("jazz".toList, "la".toList) := by
  have h := run_refinement_agent_extract_fallback "ok".toList "jazz".toList "la".toList
    (by decide) (by decide)
  rw [h]
  decide

/-- C4 counterexample: a response with neither marker, where the returned
style differs from the original because the original carried surrounding
backticks (the unconditional markdown strip). -/
theorem run_refinement_agent_extract_counterexample :
    containsSub refinedStyleMarker "no markers here".toList = false ∧
    containsSub refinedLyricsMarker "no markers here".toList = false ∧
    run_refinement_agent_extract "no markers here".toList "`jazz`".toList "la".toList ≠
      ("`jazz`".toList, "la".toList) := by
  refine ⟨by decide, by decide, by decide⟩

/-! ## C1 — Style length cap -/

lemma sepIdxs_ge (t : Str) : ∀ i j, j ∈ sepIdxs t i → i ≤ j := by
  induction t with
  | nil => intro i j h; simp [sepIdxs] at h
  | cons c rest ih =>
    intro i j h
    unfold sepIdxs at h
    by_cases hb : c = ',' ∧ rest.head? = some ' '
    · rw [if_pos hb] at h
      rcases List.mem_cons.mp h with rfl | h'
      · exact le_refl j
      · exact Nat.le_of_succ_le (ih (i + 1) j h')
    · rw [if_neg hb] at h
      exact Nat.le_of_succ_le (ih (i + 1) j h)

lemma mem_sepIdxs (t : Str) : ∀ i k, (i + k) ∈ sepIdxs t i ↔ sepAt t k := by
  induction t with
  | nil =>
    intro i k
    simp [sepIdxs, sepAt]
  | cons c rest ih =>
    intro i k
    unfold sepIdxs
    have hsep0 : sepAt (c :: rest) 0 ↔ (c = ',' ∧ rest.head? = some ' ') := by
      unfold sepAt
      cases rest with
      | nil => simp
      | cons c2 r =>
        constructor
        · intro h
          simp only [List.drop_zero, List.take_cons_succ, List.take_cons_succ,
            List.take_zero] at h
          have h1 : c = ',' := by
            have := List.head_eq_of_cons_eq h; simpa using this
          have h2 : c2 = ' ' := by
            have := List.tail_eq_of_cons_eq h
            have := List.head_eq_of_cons_eq this; simpa using this
          simp [h1, h2]
        · intro ⟨h1, h2⟩
          simp only [List.head?_cons, Option.some_inj] at h2
          simp [h1, h2, sepAt]
    by_cases hb : c = ',' ∧ rest.head? = some ' '
    · rw [if_pos hb]
      cases k with
      | zero =>
        simp only [Nat.add_zero]
        exact iff_of_true (List.mem_cons_self i _) (hsep0.mpr hb)
      | succ k' =>
        have hne : i + (k' + 1) ≠ i := by omega
        rw [List.mem_cons, or_iff_right hne]
        have : i + (k' + 1) = (i + 1) + k' := by omega
        rw [this, ih (i + 1) k']
        unfold sepAt
        rw [List.drop_succ_cons]
    · rw [if_neg hb]
      cases k with
      | zero =>
        simp only [Nat.add_zero]
        constructor
        · intro h
          have := sepIdxs_ge rest (i + 1) i h
          omega
        · intro h
          exact absurd (hsep0.mp h) hb
      | succ k' =>
        have : i + (k' + 1) = (i + 1) + k' := by omega
        rw [this, ih (i + 1) k']
        unfold sepAt
        rw [List.drop_succ_cons]

lemma sepIdxs_getLast_max (t : Str) :
    ∀ i m, (sepIdxs t i).getLast? = some m → ∀ j, j ∈ sepIdxs t i → j ≤ m := by
  induction t with
  | nil => intro i m h; simp [sepIdxs] at h
  | cons c rest ih =>
    intro i m h j hj
    unfold sepIdxs at h hj
    by_cases hb : c = ',' ∧ rest.head? = some ' '
    · rw [if_pos hb] at h hj
      rcases List.mem_cons.mp hj with hji | hj'
      · cases hS : sepIdxs rest (i + 1) with
        | nil =>
          rw [hS] at h
          simp only [List.getLast?_singleton, Option.some_inj] at h
          omega
        | cons a l =>
          rw [hS, List.getLast?_cons_cons] at h
          have hm : m ∈ sepIdxs rest (i + 1) := by
            rw [hS]
            exact List.mem_of_mem_getLast? (Option.mem_def.mpr h)
          have := sepIdxs_ge rest (i + 1) m hm
          omega
      · cases hS : sepIdxs rest (i + 1) with
        | nil => rw [hS] at hj'; simp at hj'
        | cons a l =>
          rw [hS, List.getLast?_cons_cons] at h
          exact ih (i + 1) m (by rw [hS]; exact h) j hj'
    · rw [if_neg hb] at h hj
      exact ih (i + 1) m h j hj

/-- C1 (amended): the Style output after the truncation step of
`generate_outputs` never exceeds `MAX_STYLE_LENGTH = 1000` characters; and
whenever the naive concatenation exceeds the cap and its first 1000
characters contain a `", "` separator starting **strictly after** index 500
(the ceiling's midpoint), the result is exactly the prefix of the truncation
window up to the last such separator (so it ends at a `", "` boundary). -/
theorem truncateStyle_spec (s : Str) :
    (truncateStyle s).length ≤ MAX_STYLE_LENGTH ∧
    (MAX_STYLE_LENGTH < s.length →
      ∀ i, rfindSep (s.take MAX_STYLE_LENGTH) = some i →
        MAX_STYLE_LENGTH / 2 < i →
        truncateStyle s = (s.take MAX_STYLE_LENGTH).take i ∧
        sepAt (s.take MAX_STYLE_LENGTH) i ∧
        (∀ j, sepAt (s.take MAX_STYLE_LENGTH) j → j ≤ i)) := by
  constructor
  · unfold truncateStyle
    by_cases hlen : s.length ≤ MAX_STYLE_LENGTH
    · rw [if_pos hlen]; exact hlen
    · rw [if_neg hlen]
      have htake : (s.take MAX_STYLE_LENGTH).length ≤ MAX_STYLE_LENGTH := by
        simp [List.length_take]
      cases hf : rfindSep (s.take MAX_STYLE_LENGTH) with
      | none =>
        simp only [hf]
        exact le_trans (length_rstripP_le _ _) htake
      | some last_comma =>
        simp only [hf]
        by_cases hc : MAX_STYLE_LENGTH / 2 < last_comma
        · rw [if_pos hc]
          exact le_trans (by simp [List.length_take]) htake
        · rw [if_neg hc]
          exact le_trans (length_rstripP_le _ _) htake
  · intro hlen i hf hi
    have heq : truncateStyle s = (s.take MAX_STYLE_LENGTH).take i := by
      unfold truncateStyle
      rw [if_neg (by omega)]
      simp only [hf]
      rw [if_pos hi]
    have hmem : i ∈ sepIdxs (s.take MAX_STYLE_LENGTH) 0 :=
      List.mem_of_mem_getLast? hf
    have hsep : sepAt (s.take MAX_STYLE_LENGTH) i := by
      have := (mem_sepIdxs (s.take MAX_STYLE_LENGTH) 0 i).mp (by simpa using hmem)
      exact this
    refine ⟨heq, hsep, ?_⟩
    intro j hj
    have hjmem : j ∈ sepIdxs (s.take MAX_STYLE_LENGTH) 0 := by
      have := (mem_sepIdxs (s.take MAX_STYLE_LENGTH) 0 j).mpr hj
      simpa using this
    exact sepIdxs_getLast_max (s.take MAX_STYLE_LENGTH) 0 i hf j hjmem

/-- Concrete witness input: a 1001-character style string whose last `", "`
inside the window starts at index 700. -/
def c1sW : Str := List.replicate 700 'a' ++ [',', ' '] ++ List.replicate 299 'b'

/-- Witness for C1 (amended): the witness string is truncated exactly at its
`", "` boundary at index 700. -/
theorem truncateStyle_spec_witness : truncateStyle c1sW = List.replicate 700 'a' := by
  have h := (truncateStyle_spec c1sW).2 (by decide) 700 (by decide) (by decide)
  rw [h.1]
  decide

/-- Concrete counterexample input: a 1001-character style string whose only
`", "` separator starts exactly at index 500 (the midpoint). -/
def c1sCex : Str := List.replicate 500 'a' ++ [',', ' '] ++ List.replicate 499 'b'

/-- C1 counterexample: the naive concatenation exceeds the cap and the
window's only `", "` separator sits exactly at the midpoint index 500 ("at
or after position 500"), yet the result is not the prefix ending at that
boundary — the code requires the separator index to be strictly greater
than 500, and here hard-truncates instead. -/
theorem truncateStyle_counterexample :
    MAX_STYLE_LENGTH < c1sCex.length ∧
    sepIdxs (c1sCex.take MAX_STYLE_LENGTH) 0 = [500] ∧
    truncateStyle c1sCex ≠ (c1sCex.take MAX_STYLE_LENGTH).take 500 := by
  refine ⟨by decide, by decide, by decide⟩

/-! ## Line splitting and joining (Python `split("\n")` / `"\n".join`) -/

/-- Python `s.split("\n")` on char lists. -/
def splitNl : Str → List Str
  | [] => [[]]
  | c :: rest =>
    if c = '\n' then [] :: splitNl rest
    else
      match splitNl rest with
      | [] => [[c]]
      | h :: t => (c :: h) :: t

/-- Python `sep.join(pieces)` on char lists. -/
def joinWith (sep : Str) : List Str → Str
  | [] => []
  | [l] => l
  | l :: ls => l ++ sep ++ joinWith sep ls

/-- Python `"\n".join(lines)`. -/
def joinNl (ls : List Str) : Str := joinWith ['\n'] ls

/-! ## Tag parser (`_parse_suno_lyrics` in `src/generator.py`) -/

/-- One bracket-tagged unit: the verbatim (stripped) tag line and the
trimmed content below it. -/
structure LyricBlock where
  tag : Str
  content : Str
deriving DecidableEq, Repr

/-- The parse result: insertion-ordered dict from section key to blocks. -/
abbrev ParsedDict := PyDict (List LyricBlock)

/-- The scanner's tag test: `stripped.startswith("[") and stripped.endswith("]")`. -/
def tagFormB (s : Str) : Bool := s.head? == some '[' && s.getLast? == some ']'

/-- Python `re.sub(r"\s*\d+$", "", t)`: if the text ends in digits, remove
the trailing digit run together with the whitespace run just before it. -/
def stripNumSuffix (t : Str) : Str :=
  match t.getLast? with
  | some c =>
    if c.isDigit then ((t.reverse.dropWhile Char.isDigit).dropWhile isPySpace).reverse
    else t
  | none => t

/-- Tag normalization in `_parse_suno_lyrics`:
`stripped[1:-1].split(":")[0].strip().lower()`, then numeral stripping,
then a final `.strip()`. -/
def normalizeTag (stripped : Str) : Str :=
  let inner := (stripped.drop 1).dropLast
  let base := lowerStr (pyStrip (inner.takeWhile (fun c => c ≠ ':')))
  pyStrip (stripNumSuffix base)

/-- `result.setdefault(key, []).append(block)`. -/
def dictAppend (d : ParsedDict) (k : Str) (b : LyricBlock) : ParsedDict :=
  if dictMem d k then d.map (fun p => if p.1 = k then (p.1, p.2 ++ [b]) else p)
  else d ++ [(k, [b])]

/-- Flush the pending block (Python `if current_section:` — note string
truthiness: an empty key suppresses the flush). -/
def flushBlock (st : Option (Str × Str)) (cur : List Str) (acc : ParsedDict) :
    ParsedDict :=
  match st with
  | none => acc
  | some (k, tl) => if k = [] then acc else dictAppend acc k ⟨tl, pyStrip (joinNl cur)⟩

/-- The line scanner loop of `_parse_suno_lyrics`. State: pending
`(section key, tag line)` and the raw content lines collected so far. -/
def scanLines : List Str → Option (Str × Str) → List Str → ParsedDict → ParsedDict
  | [], st, cur, acc => flushBlock st cur acc
  | line :: rest, st, cur, acc =>
    let stripped := pyStrip line
    if tagFormB stripped then
      scanLines rest (some (normalizeTag stripped, stripped)) [] (flushBlock st cur acc)
    else
      match st with
      | some p => scanLines rest (some p) (cur ++ [line]) acc
      | none => scanLines rest none cur acc

/-- `_parse_suno_lyrics` from `src/generator.py` (lines 710-748). -/
def parse_suno_lyrics (text : Str) : ParsedDict :=
  if pyStrip text = [] then []
  else scanLines (splitNl (pyStrip text)) none [] []

/-! ## Synonym matching (`_get_nearest_section_type`) -/

/-- `_get_nearest_section_type` from `src/generator.py` (lines 751-774):
exact key first, then the fixed hook/chorus/refrain synonym cluster. -/
def get_nearest_section_type (section_type : Str) (available_types : List Str) :
    Option Str :=
  if lowerStr section_type ∈ available_types then some (lowerStr section_type)
  else if lowerStr section_type = "hook".toList then
    if "chorus".toList ∈ available_types then some "chorus".toList
    else if "refrain".toList ∈ available_types then some "refrain".toList
    else none
  else if lowerStr section_type = "refrain".toList then
    if "chorus".toList ∈ available_types then some "chorus".toList
    else if "hook".toList ∈ available_types then some "hook".toList
    else none
  else if lowerStr section_type = "chorus".toList then
    if "hook".toList ∈ available_types then some "hook".toList
    else if "refrain".toList ∈ available_types then some "refrain".toList
    else none
  else none

/-! ## Section merge (`_build_lyrics_output`) -/

/-- A structural section from the Song Structure editor (`id` is an opaque
UI identifier and irrelevant to the merge, so it is omitted here). -/
structure SongSection where
  type : Str
  instruments : Str
deriving DecidableEq, Repr

/-- The section's emitted tag line: `"[Type: instruments]"` or `"[Type]"`. -/
def sectionTagLine (sec : SongSection) : Str :=
  let instruments := pyStrip sec.instruments
  if instruments ≠ [] then '[' :: (sec.type ++ ':' :: ' ' :: instruments ++ [']'])
  else '[' :: (sec.type ++ [']'])

/-- `section_counters.get(key, 0)`. -/
def countersGet (cs : PyDict Nat) (k : Str) : Nat := (dictGet cs k).getD 0

/-- State of the merge loop: output lines so far, per-key consumption
counters and the set of keys with at least one consumed block. -/
structure MergeSt where
  lines : List Str
  counters : PyDict Nat
  consumed : List Str
deriving DecidableEq, Repr

/-- The matched-key selection of the merge loop: exact key if present, else
the synonym lookup (guarded by `elif parsed_lyrics:`). -/
def mergeMatchedKey (parsed : ParsedDict) (section_key : Str) : Option Str :=
  if dictMem parsed section_key then some section_key
  else if parsed ≠ [] then get_nearest_section_type section_key (dictKeys parsed)
  else none

/-- One iteration of the merge loop in `_build_lyrics_output`
(lines 591-622 of `src/generator.py`); `matched_key` is additionally
required to be non-empty by Python string truthiness. -/
def mergeStep (parsed : ParsedDict) (st : MergeSt) (sec : SongSection) : MergeSt :=
  match mergeMatchedKey parsed (lowerStr sec.type) with
  | some mk =>
    if mk = [] then
      { lines := st.lines ++ [sectionTagLine sec] ++ [[]],
        counters := st.counters, consumed := st.consumed }
    else
      match dictGet parsed mk with
      | some blocks =>
        match blocks[countersGet st.counters mk]? with
        | some blk =>
          { lines := st.lines ++ [sectionTagLine sec] ++
              (if blk.content = [] then [] else [blk.content]) ++ [[]],
            counters := dictSet st.counters mk (countersGet st.counters mk + 1),
            consumed := if mk ∈ st.consumed then st.consumed
              else st.consumed ++ [mk] }
        | none =>
          { lines := st.lines ++ [sectionTagLine sec] ++ [[]],
            counters := st.counters, consumed := st.consumed }
      | none =>
        { lines := st.lines ++ [sectionTagLine sec] ++ [[]],
          counters := st.counters, consumed := st.consumed }
  | none =>
    { lines := st.lines ++ [sectionTagLine sec] ++ [[]],
      counters := st.counters, consumed := st.consumed }

/-- The merge loop over all sections, starting from the empty state. -/
def mergeSections (parsed : ParsedDict) (sections : List SongSection) : MergeSt :=
  sections.foldl (mergeStep parsed) ⟨[], [], []⟩

/-- Output lines for one leftover block: its verbatim tag line, its content
(when non-empty) and the blank separator line. -/
def blockOutLines (b : LyricBlock) : List Str :=
  b.tag :: ((if b.content = [] then [] else [b.content]) ++ [[]])

/-- The leftover phase of `_build_lyrics_output` (lines 624-642): for
consumed keys emit the blocks beyond the consumption counter, for keys never
consumed emit every block. -/
def leftoverLines (parsed : ParsedDict) (counters : PyDict Nat)
    (consumed : List Str) : List Str :=
  parsed.flatMap (fun kv =>
    (if kv.1 ∈ consumed then kv.2.drop (countersGet counters kv.1) else kv.2).flatMap
      blockOutLines)

/-- The `[Style] (...)` header line of `_build_lyrics_output`
(lines 561-573). -/
def build_style_header (genre key mode tempo time_sig : Str) : Str :=
  let parts := [genre]
  let parts := if key ≠ [] ∧ key ≠ "None".toList then parts ++ [key] else parts
  let parts :=
    if mode ≠ [] ∧ mode ≠ "Ionian (Major)".toList ∧ mode ≠ "None".toList then
      let mode_name :=
        if containsSub " (".toList mode then (splitSub " (".toList mode).getD 0 []
        else mode
      parts ++ [mode_name]
    else parts
  let parts := if tempo ≠ [] ∧ tempo ≠ "None".toList then parts ++ [tempo] else parts
  let parts :=
    if time_sig ≠ [] ∧ time_sig ≠ "4/4".toList ∧ time_sig ≠ "None".toList then
      parts ++ [time_sig]
    else parts
  "[Style] (".toList ++ joinWith ", ".toList parts ++ [')']

/-- `_build_lyrics_output` from `src/generator.py` (lines 539-642).
`templates` stands for the `LYRIC_TEMPLATES` lookup table from
`src/data.py` (pure data, passed explicitly). -/
def build_lyrics_output (genre key mode tempo time_sig : Str)
    (sections : List SongSection) (suno_lyrics : Str) (lyric_template : Str)
    (templates : PyDict Str) : Str :=
  let base := [build_style_header genre key mode tempo time_sig, []]
  if lyric_template ≠ [] ∧ lyric_template ≠ "None".toList ∧
      (dictGet templates lyric_template).getD [] ≠ [] then
    pyStrip (joinNl (base ++ [(dictGet templates lyric_template).getD []]))
  else
    let parsed := if suno_lyrics ≠ [] then parse_suno_lyrics suno_lyrics else []
    let ms := mergeSections parsed sections
    pyStrip (joinNl (base ++ ms.lines ++ leftoverLines parsed ms.counters ms.consumed))

/-! ## Section extraction (`parse_lyrics_to_sections` in `src/generator.py`) -/

/-- Python `str.title()` (ASCII): uppercase a letter after a non-letter,
lowercase a letter after a letter. -/
def pyTitleAux : Bool → Str → Str
  | _, [] => []
  | prevAlpha, c :: rest =>
    (if c.isAlpha then (if prevAlpha then c.toLower else c.toUpper) else c) ::
      pyTitleAux c.isAlpha rest

/-- Python `str.title()` (ASCII). -/
def pyTitle (s : Str) : Str := pyTitleAux false s

/-- Match the regex `\[([^\]:]+)(?::\s*([^\]]+))?\]` at a position just
after an opening `[`: returns `(group 1, optional group 2, remaining text
after the closing bracket)`.  The backtracking case of `\s*([^\]]+)` against
an all-whitespace run leaves the last whitespace character to group 2. -/
def matchTag (after : Str) : Option (Str × Option Str × Str) :=
  let g1 := after.takeWhile (fun c => c ≠ ']' ∧ c ≠ ':')
  if g1 = [] then none
  else
    match after.drop g1.length with
    | ']' :: rest => some (g1, none, rest)
    | ':' :: r2 =>
      let t2 := r2.takeWhile (fun c => c ≠ ']')
      if t2 = [] then none
      else
        match r2.drop t2.length with
        | ']' :: rest =>
          let g2 :=
            if t2.dropWhile isPySpace ≠ [] then t2.dropWhile isPySpace
            else t2.drop (t2.length - 1)
          some (g1, some g2, rest)
        | _ => none
    | _ => none

/-- `re.finditer` scan for the tag pattern: try a match at each `[`, skip
one character on failure, resume after the closing bracket on success.
Each successful match consumes at least one character, so `text.length`
fuel is always sufficient. -/
def scanTagsFuel : Nat → Str → List (Str × Option Str)
  | 0, _ => []
  | _ + 1, [] => []
  | fuel + 1, c :: rest =>
    if c = '[' then
      match matchTag rest with
      | some (g1, g2, rest') => (g1, g2) :: scanTagsFuel fuel rest'
      | none => scanTagsFuel fuel rest
    else scanTagsFuel fuel rest

/-- All tag-pattern matches in the text, in order. -/
def scanTags (text : Str) : List (Str × Option Str) := scanTagsFuel text.length text

/-- `parse_lyrics_to_sections` from `src/generator.py` (lines 777-811)
(the generated `uuid` id is opaque and omitted). -/
def parse_lyrics_to_sections (lyrics_text : Str) : List SongSection :=
  if pyStrip lyrics_text = [] then []
  else
    (scanTags lyrics_text).filterMap (fun m =>
      let section_type := pyStrip m.1
      let instruments := match m.2 with | some g => pyStrip g | none => []
      let normalized := pyTitle (pyStrip (stripNumSuffix section_type))
      if lowerStr normalized = "style".toList ∨ lowerStr normalized = "end".toList then
        none
      else some ⟨normalized, instruments⟩)

/-! ## Lemmas about `splitNl` / `joinNl` -/

lemma splitNl_nil : splitNl [] = [[]] := rfl

lemma splitNl_cons_nl (rest : Str) : splitNl ('\n' :: rest) = [] :: splitNl rest := by
  simp [splitNl]

lemma splitNl_cons_ne (c : Char) (rest : Str) (hd : Str) (t : List Str)
    (h : c ≠ '\n') (hs : splitNl rest = hd :: t) :
    splitNl (c :: rest) = (c :: hd) :: t := by
  simp [splitNl, h, hs]

lemma splitNl_ne_nil (s : Str) : splitNl s ≠ [] := by
  cases s with
  | nil => simp [splitNl]
  | cons c rest =>
    unfold splitNl
    by_cases h : c = '\n'
    · simp [h]
    · rw [if_neg h]
      cases splitNl rest <;> simp

lemma joinWith_two (sep : Str) (x a : Str) (t : List Str) :
    joinWith sep (x :: a :: t) = x ++ sep ++ joinWith sep (a :: t) := by
  simp [joinWith]

lemma joinNl_cons (x : Str) (rest : List Str) (h : rest ≠ []) :
    joinNl (x :: rest) = x ++ '\n' :: joinNl rest := by
  cases rest with
  | nil => exact absurd rfl h
  | cons a t =>
    unfold joinNl
    rw [joinWith_two]
    simp

lemma joinNl_splitNl (s : Str) : joinNl (splitNl s) = s := by
  induction s with
  | nil => rfl
  | cons c rest ih =>
    by_cases h : c = '\n'
    · subst h
      rw [splitNl_cons_nl, joinNl_cons [] (splitNl rest) (splitNl_ne_nil rest), ih]
      rfl
    · cases hs : splitNl rest with
      | nil => exact absurd hs (splitNl_ne_nil rest)
      | cons hd t =>
        rw [splitNl_cons_ne c rest hd t h hs]
        rw [hs] at ih
        cases t with
        | nil =>
          simp only [joinNl, joinWith] at ih ⊢
          rw [ih]
        | cons a t' =>
          unfold joinNl at ih ⊢
          rw [joinWith_two] at ih ⊢
          rw [← ih]
          simp

lemma splitNl_append_newline (x z : Str) :
    splitNl (x ++ '\n' :: z) = splitNl x ++ splitNl z := by
  induction x with
  | nil => rw [List.nil_append, splitNl_cons_nl, splitNl_nil]; rfl
  | cons c x' ih =>
    by_cases h : c = '\n'
    · subst h
      rw [List.cons_append, splitNl_cons_nl, splitNl_cons_nl, ih]
      rfl
    · cases hs : splitNl x' with
      | nil => exact absurd hs (splitNl_ne_nil x')
      | cons hd t =>
        rw [List.cons_append,
          splitNl_cons_ne c (x' ++ '\n' :: z) hd (t ++ splitNl z) h (by rw [ih, hs]; rfl),
          splitNl_cons_ne c x' hd t h hs]
        rfl

lemma splitNl_flat (ls : List Str) (h : ls ≠ []) :
    splitNl (joinNl ls) = ls.flatMap splitNl := by
  induction ls with
  | nil => exact absurd rfl h
  | cons x rest ih =>
    cases rest with
    | nil => simp [joinNl, joinWith]
    | cons a t =>
      rw [joinNl_cons x (a :: t) (by simp), splitNl_append_newline, ih (by simp)]
      rfl

lemma mem_splitNl_no_newline (s : Str) : ∀ l ∈ splitNl s, '\n' ∉ l := by
  induction s with
  | nil => intro l hl; simp [splitNl] at hl; simp [hl]
  | cons c rest ih =>
    intro l hl
    by_cases h : c = '\n'
    · subst h
      rw [splitNl_cons_nl] at hl
      rcases List.mem_cons.mp hl with rfl | hl'
      · simp
      · exact ih l hl'
    · cases hs : splitNl rest with
      | nil => exact absurd hs (splitNl_ne_nil rest)
      | cons hd t =>
        rw [splitNl_cons_ne c rest hd t h hs] at hl
        rcases List.mem_cons.mp hl with rfl | hl'
        · intro hmem
          rcases List.mem_cons.mp hmem with h1 | h2
          · exact h h1.symm
          · exact ih hd (by rw [hs]; exact List.mem_cons_self hd t) h2
        · exact ih l (by rw [hs]; exact List.mem_cons_of_mem hd hl')

lemma splitNl_singleton (x : Str) (h : '\n' ∉ x) : splitNl x = [x] := by
  induction x with
  | nil => rfl
  | cons c x' ih =>
    have hc : c ≠ '\n' := fun hc => h (by rw [hc]; exact List.mem_cons_self _ _)
    rw [splitNl_cons_ne c x' x' [] hc (ih (fun hm => h (List.mem_cons_of_mem c hm)))]

lemma splitNl_joinNl_id (ls : List Str) (h : ls ≠ [])
    (h2 : ∀ l ∈ ls, '\n' ∉ l) : splitNl (joinNl ls) = ls := by
  rw [splitNl_flat ls h]
  calc ls.flatMap splitNl = ls.flatMap (fun l => [l]) := by
        apply List.flatMap_congr
        intro l hl
        rw [splitNl_singleton l (h2 l hl)]
    _ = ls := by simp

/-! ## Lemmas about stripping -/

lemma rstripP_rdropWhile (p : Char → Bool) (l : Str) : rstripP p l = l.rdropWhile p := rfl

lemma lstripP_eq_self (p : Char → Bool) (x : Str)
    (h : ∀ c r, x = c :: r → p c = false) : lstripP p x = x := by
  cases x with
  | nil => rfl
  | cons c r =>
    unfold lstripP
    rw [List.dropWhile_cons, if_neg (by rw [h c r rfl]; simp)]

lemma rstripP_eq_self (p : Char → Bool) (x : Str)
    (h : ∀ c, x.getLast? = some c → p c = false) : rstripP p x = x := by
  rw [rstripP_rdropWhile, List.rdropWhile_eq_self_iff]
  intro hl
  have := h (x.getLast hl) (List.getLast?_eq_getLast x hl)
  simp [this]

lemma rstripP_append_sat (p : Char → Bool) (x y : Str)
    (hy : ∀ c ∈ y, p c = true) : rstripP p (x ++ y) = rstripP p x := by
  unfold rstripP
  rw [List.reverse_append, List.dropWhile_append]
  have hrev : y.reverse.dropWhile p = [] := by
    rw [List.dropWhile_eq_nil_iff]
    intro c hc
    exact hy c (List.mem_reverse.mp hc)
  rw [hrev]
  simp

lemma pyStrip_append_ws (x y : Str) (hy : ∀ c ∈ y, isPySpace c = true) :
    pyStrip (x ++ y) = pyStrip x := by
  unfold pyStrip lstripP
  rw [List.dropWhile_append]
  by_cases hx : (x.dropWhile isPySpace).isEmpty
  · rw [if_pos hx]
    have h1 : y.dropWhile isPySpace = [] := List.dropWhile_eq_nil_iff.mpr hy
    have h2 : x.dropWhile isPySpace = [] := List.isEmpty_iff.mp hx
    rw [h1, h2]
  · rw [if_neg hx]
    exact rstripP_append_sat isPySpace _ y hy

lemma lstripP_head (p : Char → Bool) (x : Str) :
    ∀ c r, lstripP p x = c :: r → p c = false := by
  induction x with
  | nil => intro c r h; simp [lstripP] at h
  | cons a x' ih =>
    intro c r h
    unfold lstripP at h
    rw [List.dropWhile_cons] at h
    by_cases ha : p a
    · rw [if_pos (by simp [ha])] at h
      exact ih c r h
    · rw [if_neg (by simpa using ha)] at h
      obtain ⟨rfl, _⟩ := List.cons.injEq a x' c r ▸ h
      simpa using ha

lemma pyStrip_head_not_ws (x : Str) :
    ∀ c r, pyStrip x = c :: r → isPySpace c = false := by
  intro c r h
  have hpref : rstripP isPySpace (lstripP isPySpace x) <+: lstripP isPySpace x := by
    rw [rstripP_rdropWhile]
    exact List.rdropWhile_prefix _ _
  obtain ⟨t, ht⟩ := hpref
  unfold pyStrip at h
  rw [h] at ht
  exact lstripP_head isPySpace x c (r ++ t) (by rw [← ht]; simp)

lemma pyStrip_getLast_not_ws (x : Str) :
    ∀ c, (pyStrip x).getLast? = some c → isPySpace c = false := by
  intro c h
  unfold pyStrip at h
  rw [rstripP_rdropWhile] at h
  have hne : (lstripP isPySpace x).rdropWhile isPySpace ≠ [] := by
    intro h0
    rw [h0] at h
    simp at h
  have hlast := List.rdropWhile_last_not isPySpace (lstripP isPySpace x) hne
  rw [List.getLast?_eq_getLast _ hne] at h
  have : c = ((lstripP isPySpace x).rdropWhile isPySpace).getLast hne := by
    injection h with h'
    exact h'.symm
  rw [this]
  simpa using hlast

lemma pyStrip_idem (x : Str) : pyStrip (pyStrip x) = pyStrip x := by
  have h1 : lstripP isPySpace (pyStrip x) = pyStrip x :=
    lstripP_eq_self isPySpace (pyStrip x) (fun c r h => pyStrip_head_not_ws x c r h)
  have h2 : rstripP isPySpace (pyStrip x) = pyStrip x :=
    rstripP_eq_self isPySpace (pyStrip x) (pyStrip_getLast_not_ws x)
  show rstripP isPySpace (lstripP isPySpace (pyStrip x)) = pyStrip x
  rw [h1, h2]

/-! ## Lemmas about `joinNl` heads and lasts -/

lemma joinNl_head (x : Str) (rest : List Str) (c : Char) (r : Str) (hx : x = c :: r) :
    (joinNl (x :: rest)).head? = some c := by
  cases rest with
  | nil => simp [joinNl, joinWith, hx]
  | cons a t =>
    rw [joinNl_cons x (a :: t) (by simp), hx]
    simp

lemma joinNl_getLast (ls : List Str) (m : Str) (hm : ls.getLast? = some m)
    (hne : m ≠ []) : (joinNl ls).getLast? = m.getLast? := by
  induction ls with
  | nil => simp at hm
  | cons x rest ih =>
    cases rest with
    | nil =>
      simp only [List.getLast?_singleton, Option.some_inj] at hm
      subst hm
      simp [joinNl, joinWith]
    | cons a t =>
      rw [List.getLast?_cons_cons] at hm
      have hJ := ih hm
      have hJne : joinNl (a :: t) ≠ [] := by
        intro h0
        rw [h0] at hJ
        cases hmg : m.getLast? with
        | none => exact hne (by simpa using hmg)
        | some z => rw [hmg] at hJ; simp at hJ
      rw [joinNl_cons x (a :: t) (by simp)]
      have : x ++ '\n' :: joinNl (a :: t) = (x ++ ['\n']) ++ joinNl (a :: t) := by simp
      rw [this, List.getLast?_append_of_ne_nil _ hJne, hJ]

lemma joinNl_append (A B : List Str) (hA : A ≠ []) (hB : B ≠ []) :
    joinNl (A ++ B) = joinNl A ++ '\n' :: joinNl B := by
  induction A with
  | nil => exact absurd rfl hA
  | cons x A' ih =>
    cases A' with
    | nil =>
      simp only [List.singleton_append]
      rw [joinNl_cons x B hB]
      simp [joinNl, joinWith]
    | cons a t =>
      have h1 : (a :: t) ++ B ≠ [] := by simp
      rw [List.cons_append, joinNl_cons x ((a :: t) ++ B) h1, ih (by simp),
        joinNl_cons x (a :: t) (by simp)]
      simp

lemma joinNl_empties (E : List Str) (hE : ∀ e ∈ E, e = []) :
    joinNl E = List.replicate (E.length - 1) '\n' := by
  induction E with
  | nil => rfl
  | cons e E' ih =>
    have he : e = [] := hE e (List.mem_cons_self e E')
    cases E' with
    | nil => simp [joinNl, joinWith, he]
    | cons a t =>
      rw [joinNl_cons e (a :: t) (by simp), he,
        ih (fun x hx => hE x (List.mem_cons_of_mem e hx))]
      simp [List.replicate_succ]

/-! ## The strip/join normal form -/

/-- Drop trailing empty lines. -/
def rdropE (ls : List Str) : List Str := ls.rdropWhile (fun l => l.isEmpty)

lemma pyStrip_joinNl_rdropE (ls : List Str) (c : Char) (r : Str)
    (h1 : ls.head? = some (c :: r)) (hc : isPySpace c = false)
    (h2 : ∀ m, (rdropE ls).getLast? = some m →
      ∃ c2, m.getLast? = some c2 ∧ isPySpace c2 = false) :
    pyStrip (joinNl ls) = joinNl (rdropE ls) := by
  have hdecomp : rdropE ls ++ ls.rtakeWhile (fun l => l.isEmpty) = ls := by
    unfold rdropE List.rdropWhile List.rtakeWhile
    rw [← List.reverse_append, List.takeWhile_append_dropWhile, List.reverse_reverse]
  have hheadmem : (c :: r) ∈ ls := by
    cases ls with
    | nil => simp at h1
    | cons x t =>
      simp only [List.head?_cons, Option.some_inj] at h1
      rw [← h1]
      exact List.mem_cons_self x t
  have hMne : rdropE ls ≠ [] := by
    intro h0
    have hall := List.rdropWhile_eq_nil_iff.mp h0
    have := hall (c :: r) hheadmem
    simp at this
  have hE : ∀ e ∈ ls.rtakeWhile (fun l => l.isEmpty), e = [] := by
    intro e he
    exact List.isEmpty_iff.mp (List.mem_rtakeWhile_imp he)
  -- head of rdropE ls is the head of ls
  have hMhead : (rdropE ls).head? = some (c :: r) := by
    obtain ⟨t, ht⟩ := List.rdropWhile_prefix (fun l => l.isEmpty) ls
    cases hM : rdropE ls with
    | nil => exact absurd hM hMne
    | cons m0 M' =>
      unfold rdropE at hM
      rw [hM] at ht
      rw [← ht] at h1
      simpa using h1
  -- the strip-equals-itself part on joinNl (rdropE ls)
  have hMstr : pyStrip (joinNl (rdropE ls)) = joinNl (rdropE ls) := by
    cases hM : rdropE ls with
    | nil => exact absurd hM hMne
    | cons m0 M' =>
      have hm0 : m0 = c :: r := by
        rw [hM] at hMhead
        simpa using hMhead
      have hhead : (joinNl (m0 :: M')).head? = some c :=
        joinNl_head m0 M' c r hm0
      obtain ⟨m, hmlast⟩ : ∃ m, (rdropE ls).getLast? = some m := by
        cases hg : (rdropE ls).getLast? with
        | none => rw [List.getLast?_eq_none_iff] at hg; exact absurd hg hMne
        | some m => exact ⟨m, rfl⟩
      obtain ⟨c2, hc2last, hc2⟩ := h2 m hmlast
      have hmne : m ≠ [] := by
        intro h0
        rw [h0] at hc2last
        simp at hc2last
      have hJlast : (joinNl (rdropE ls)).getLast? = some c2 := by
        rw [joinNl_getLast (rdropE ls) m hmlast hmne, hc2last]
      unfold pyStrip
      rw [hM] at hJlast
      rw [lstripP_eq_self isPySpace _ (by
        intro c' r' hcr
        rw [hcr] at hhead
        simp only [List.head?_cons, Option.some_inj] at hhead
        rw [hhead]
        exact hc)]
      exact rstripP_eq_self isPySpace _ (by
        intro c' hcl
        rw [hJlast] at hcl
        injection hcl with h'
        rw [← h']
        exact hc2)
  -- put it together
  conv_lhs => rw [← hdecomp]
  cases hEc : ls.rtakeWhile (fun l => l.isEmpty) with
  | nil => rw [List.append_nil]; exact hMstr
  | cons e E' =>
    rw [joinNl_append (rdropE ls) (e :: E') hMne (by simp)]
    have hEall : ∀ x ∈ (e :: E'), x = [] := by rw [← hEc]; exact hE
    rw [joinNl_empties (e :: E') hEall]
    have : '\n' :: List.replicate ((e :: E').length - 1) '\n' =
        List.replicate (e :: E').length '\n' := by
      simp only [List.length_cons]
      rw [show (E'.length + 1) - 1 = E'.length by simp]
      rfl
    rw [show joinNl (rdropE ls) ++ '\n' :: List.replicate ((e :: E').length - 1) '\n' =
        joinNl (rdropE ls) ++ List.replicate (e :: E').length '\n' by rw [this],
      pyStrip_append_ws _ _ (by
        intro ch hch
        rw [List.eq_of_mem_replicate hch]
        rfl)]
    exact hMstr

/-! ## Line-level view of whole-text stripping -/

lemma rstripP_append (p : Char → Bool) (a b : Str) :
    rstripP p (a ++ b) = if rstripP p b = [] then rstripP p a else a ++ rstripP p b := by
  unfold rstripP
  rw [List.reverse_append, List.dropWhile_append]
  by_cases hb : (b.reverse.dropWhile p).isEmpty
  · rw [if_pos hb]
    have : b.reverse.dropWhile p = [] := List.isEmpty_iff.mp hb
    rw [if_pos (by rw [this]; rfl)]
  · rw [if_neg hb]
    have hne : (b.reverse.dropWhile p).reverse ≠ [] := by
      intro h0
      apply hb
      rw [List.reverse_eq_nil_iff] at h0
      rw [h0]
      rfl
    rw [if_neg hne]
    simp

lemma rstripP_singleton (p : Char → Bool) (c : Char) :
    rstripP p [c] = if p c then [] else [c] := by
  unfold rstripP
  by_cases h : p c
  · simp [List.dropWhile, h]
  · simp [List.dropWhile, h]

lemma rstripP_eq_nil_iff (p : Char → Bool) (z : Str) :
    rstripP p z = [] ↔ ∀ c ∈ z, p c = true := by
  unfold rstripP
  constructor
  · intro h c hc
    have : z.reverse.dropWhile p = [] := by simpa using h
    exact List.dropWhile_eq_nil_iff.mp this c (List.mem_reverse.mpr hc)
  · intro h
    have : z.reverse.dropWhile p = [] :=
      List.dropWhile_eq_nil_iff.mpr (fun c hc => h c (List.mem_reverse.mp hc))
    rw [this]
    rfl

lemma pyStrip_ws_prepend (w y : Str) (hw : ∀ c ∈ w, isPySpace c = true) :
    pyStrip (w ++ y) = pyStrip y := by
  unfold pyStrip lstripP
  rw [List.dropWhile_append]
  rw [if_pos (by rw [List.dropWhile_eq_nil_iff.mpr hw]; rfl)]

lemma pyStrip_lstripP (z : Str) : pyStrip (lstripP isPySpace z) = pyStrip z := by
  conv_rhs => rw [← List.takeWhile_append_dropWhile isPySpace z]
  rw [pyStrip_ws_prepend _ _ (fun c hc => List.mem_takeWhile_imp hc)]
  rfl

lemma pyStrip_rstripP (z : Str) : pyStrip (rstripP isPySpace z) = pyStrip z := by
  have hdecomp : rstripP isPySpace z ++ z.rtakeWhile isPySpace = z := by
    rw [rstripP_rdropWhile]
    unfold List.rdropWhile List.rtakeWhile
    rw [← List.reverse_append, List.takeWhile_append_dropWhile, List.reverse_reverse]
  conv_rhs => rw [← hdecomp]
  rw [pyStrip_append_ws _ _ (fun c hc => List.mem_rtakeWhile_imp hc)]

/-- All-whitespace test. -/
def allWsB (z : Str) : Bool := z.all isPySpace

/-- Effect of Python `strip` on the leading edge, per line: skip all-white
lines, left-strip the first surviving line. -/
def lstripLines : List Str → List Str
  | [] => []
  | l :: ls => if allWsB l then lstripLines ls else lstripP isPySpace l :: ls

/-- Effect of Python `strip` on the trailing edge, per line: drop trailing
all-white lines, right-strip the last surviving line. -/
def rstripLines : List Str → List Str
  | [] => []
  | l :: ls =>
    match rstripLines ls with
    | [] => if allWsB l then [] else [rstripP isPySpace l]
    | x :: xs => l :: x :: xs

lemma lstripP_joinNl (ls : List Str) :
    lstripP isPySpace (joinNl ls) = joinNl (lstripLines ls) := by
  induction ls with
  | nil => rfl
  | cons l ls' ih =>
    by_cases hws : allWsB l
    · have hlnil : l.dropWhile isPySpace = [] :=
        List.dropWhile_eq_nil_iff.mpr (fun c hc => by
          have := List.all_eq_true.mp hws c hc
          simpa using this)
      cases ls' with
      | nil =>
        simp [lstripLines, hws, joinNl, joinWith, lstripP, hlnil]
      | cons a t =>
        rw [joinNl_cons l (a :: t) (by simp)]
        unfold lstripP at ih ⊢
        rw [List.dropWhile_append, if_pos (by rw [hlnil]; rfl)]
        simp only [List.dropWhile_cons]
        rw [if_pos (by simp [isPySpace])]
        rw [ih]
        simp [lstripLines, hws]
    · have hlne : l.dropWhile isPySpace ≠ [] := by
        intro h0
        apply hws
        unfold allWsB
        rw [List.all_eq_true]
        intro c hc
        exact List.dropWhile_eq_nil_iff.mp h0 c hc
      cases ls' with
      | nil =>
        simp [lstripLines, if_neg hws, joinNl, joinWith, lstripP]
      | cons a t =>
        rw [joinNl_cons l (a :: t) (by simp)]
        unfold lstripP
        rw [List.dropWhile_append, if_neg (by
          intro h0
          exact hlne (List.isEmpty_iff.mp h0))]
        simp only [lstripLines, if_neg hws]
        rw [joinNl_cons _ (a :: t) (by simp)]
        rfl

lemma rstripLines_getLast_ne_nil (ls : List Str) :
    ∀ m, (rstripLines ls).getLast? = some m → m ≠ [] := by
  induction ls with
  | nil => intro m hm; simp [rstripLines] at hm
  | cons l ls' ih =>
    intro m hm
    unfold rstripLines at hm
    cases hr : rstripLines ls' with
    | nil =>
      rw [hr] at hm
      by_cases hws : allWsB l
      · rw [if_pos hws] at hm; simp at hm
      · rw [if_neg hws] at hm
        simp only [List.getLast?_singleton, Option.some_inj] at hm
        subst hm
        intro h0
        apply hws
        unfold allWsB
        rw [List.all_eq_true]
        intro c hc
        exact (rstripP_eq_nil_iff isPySpace l).mp h0 c hc
    | cons x xs =>
      rw [hr, List.getLast?_cons_cons] at hm
      exact ih m (by rw [hr]; exact hm)

lemma joinNl_rstripLines_eq_nil (ls : List Str)
    (h : joinNl (rstripLines ls) = []) : rstripLines ls = [] := by
  cases hr : rstripLines ls with
  | nil => rfl
  | cons x xs =>
    cases xs with
    | nil =>
      rw [hr] at h
      simp only [joinNl, joinWith] at h
      have := rstripLines_getLast_ne_nil ls x (by rw [hr]; rfl)
      exact absurd h this
    | cons y ys =>
      rw [hr, joinNl_cons x (y :: ys) (by simp)] at h
      have : '\n' ∈ ([] : Str) := by rw [← h]; simp
      simp at this

lemma rstripP_joinNl (ls : List Str) :
    rstripP isPySpace (joinNl ls) = joinNl (rstripLines ls) := by
  induction ls with
  | nil => rfl
  | cons l ls' ih =>
    cases ls' with
    | nil =>
      show rstripP isPySpace l = joinNl (rstripLines [l])
      unfold rstripLines
      by_cases hws : allWsB l
      · rw [if_pos hws]
        have : rstripP isPySpace l = [] :=
          (rstripP_eq_nil_iff isPySpace l).mpr (fun c hc => by
            have := List.all_eq_true.mp hws c hc
            simpa using this)
        rw [this]
        rfl
      · rw [if_neg hws]
        rfl
    | cons a t =>
      rw [joinNl_cons l (a :: t) (by simp), rstripP_append]
      by_cases hJ : rstripP isPySpace (joinNl (a :: t)) = []
      · have hnl : rstripP isPySpace ('\n' :: joinNl (a :: t)) = [] := by
          rw [rstripP_eq_nil_iff] at hJ ⊢
          intro c hc
          rcases List.mem_cons.mp hc with rfl | hc'
          · rfl
          · exact hJ c hc'
        rw [if_pos hnl]
        have hrl : rstripLines (a :: t) = [] :=
          joinNl_rstripLines_eq_nil (a :: t) (by rw [← ih]; exact hJ)
        show rstripP isPySpace l = joinNl (rstripLines (l :: a :: t))
        unfold rstripLines
        rw [show rstripLines (a :: t) = [] from hrl]
        by_cases hws : allWsB l
        · rw [if_pos hws]
          exact (rstripP_eq_nil_iff isPySpace l).mpr (fun c hc => by
            have := List.all_eq_true.mp hws c hc
            simpa using this)
        · rw [if_neg hws]
          rfl
      · have hnl : rstripP isPySpace ('\n' :: joinNl (a :: t)) =
            '\n' :: rstripP isPySpace (joinNl (a :: t)) := by
          have := rstripP_append isPySpace ['\n'] (joinNl (a :: t))
          rw [if_neg hJ] at this
          simpa using this
        rw [if_neg (by rw [hnl]; simp)]
        rw [hnl, ih]
        cases hr : rstripLines (a :: t) with
        | nil =>
          have : joinNl (rstripLines (a :: t)) = [] := by rw [hr]; rfl
          rw [← ih] at this
          exact absurd this hJ
        | cons x xs =>
          show l ++ '\n' :: joinNl (x :: xs) = joinNl (rstripLines (l :: a :: t))
          unfold rstripLines
          rw [show rstripLines (a :: t) = x :: xs from hr]
          rw [joinNl_cons l (x :: xs) (by simp)]

lemma pyStrip_joinNl_lines (ls : List Str) :
    pyStrip (joinNl ls) = joinNl (rstripLines (lstripLines ls)) := by
  unfold pyStrip
  rw [lstripP_joinNl, rstripP_joinNl]

lemma mem_lstripLines (ls : List Str) :
    ∀ x ∈ lstripLines ls, ∃ l ∈ ls, pyStrip x = pyStrip l := by
  induction ls with
  | nil => intro x hx; simp [lstripLines] at hx
  | cons l ls' ih =>
    intro x hx
    unfold lstripLines at hx
    by_cases hws : allWsB l
    · rw [if_pos hws] at hx
      obtain ⟨l', hl', he⟩ := ih x hx
      exact ⟨l', List.mem_cons_of_mem l hl', he⟩
    · rw [if_neg hws] at hx
      rcases List.mem_cons.mp hx with rfl | hx'
      · exact ⟨l, List.mem_cons_self l ls', pyStrip_lstripP l⟩
      · exact ⟨x, List.mem_cons_of_mem l hx', rfl⟩

lemma mem_rstripLines (ls : List Str) :
    ∀ x ∈ rstripLines ls, ∃ l ∈ ls, pyStrip x = pyStrip l := by
  induction ls with
  | nil => intro x hx; simp [rstripLines] at hx
  | cons l ls' ih =>
    intro x hx
    unfold rstripLines at hx
    cases hr : rstripLines ls' with
    | nil =>
      rw [hr] at hx
      by_cases hws : allWsB l
      · rw [if_pos hws] at hx; simp at hx
      · rw [if_neg hws] at hx
        rcases List.mem_cons.mp hx with rfl | hx'
        · exact ⟨l, List.mem_cons_self l ls', pyStrip_rstripP l⟩
        · simp at hx'
    | cons y ys =>
      rw [hr] at hx
      rcases List.mem_cons.mp hx with rfl | hx'
      · exact ⟨x, List.mem_cons_self x ls', rfl⟩
      · obtain ⟨l', hl', he⟩ := ih x (by rw [hr]; exact hx')
        exact ⟨l', List.mem_cons_of_mem l hl', he⟩

lemma mem_lstripLines_no_newline (ls : List Str) (h : ∀ l ∈ ls, '\n' ∉ l) :
    ∀ x ∈ lstripLines ls, '\n' ∉ x := by
  induction ls with
  | nil => intro x hx; simp [lstripLines] at hx
  | cons l ls' ih =>
    intro x hx
    unfold lstripLines at hx
    by_cases hws : allWsB l
    · rw [if_pos hws] at hx
      exact ih (fun l' hl' => h l' (List.mem_cons_of_mem l hl')) x hx
    · rw [if_neg hws] at hx
      rcases List.mem_cons.mp hx with rfl | hx'
      · intro hmem
        exact h l (List.mem_cons_self l ls') ((List.dropWhile_sublist isPySpace).subset hmem)
      · exact h x (List.mem_cons_of_mem l hx')

lemma mem_rstripLines_no_newline (ls : List Str) (h : ∀ l ∈ ls, '\n' ∉ l) :
    ∀ x ∈ rstripLines ls, '\n' ∉ x := by
  induction ls with
  | nil => intro x hx; simp [rstripLines] at hx
  | cons l ls' ih =>
    intro x hx
    unfold rstripLines at hx
    cases hr : rstripLines ls' with
    | nil =>
      rw [hr] at hx
      by_cases hws : allWsB l
      · rw [if_pos hws] at hx; simp at hx
      · rw [if_neg hws] at hx
        rcases List.mem_cons.mp hx with rfl | hx'
        · intro hmem
          apply h l (List.mem_cons_self l ls')
          unfold rstripP at hmem
          rw [List.mem_reverse] at hmem
          exact List.mem_reverse.mp ((List.dropWhile_sublist isPySpace).subset hmem)
        · simp at hx'
    | cons y ys =>
      rw [hr] at hx
      rcases List.mem_cons.mp hx with rfl | hx'
      · exact h x (List.mem_cons_self x ls')
      · exact ih (fun l' hl' => h l' (List.mem_cons_of_mem l hl')) x (by rw [hr]; exact hx')

/-- Every line of the stripped joined text is empty or strip-equivalent to
one of the original lines. -/
lemma mem_splitNl_pyStrip_joinNl (ls : List Str) (hnl : ∀ l ∈ ls, '\n' ∉ l) :
    ∀ cl ∈ splitNl (pyStrip (joinNl ls)), cl = [] ∨ ∃ l ∈ ls, pyStrip cl = pyStrip l := by
  intro cl hcl
  rw [pyStrip_joinNl_lines] at hcl
  cases hR : rstripLines (lstripLines ls) with
  | nil =>
    rw [hR] at hcl
    simp only [joinNl, joinWith, splitNl] at hcl
    rcases List.mem_cons.mp hcl with rfl | h0
    · exact Or.inl rfl
    · simp at h0
  | cons x xs =>
    have hRnl : ∀ l' ∈ rstripLines (lstripLines ls), '\n' ∉ l' :=
      mem_rstripLines_no_newline (lstripLines ls) (mem_lstripLines_no_newline ls hnl)
    rw [splitNl_joinNl_id _ (by rw [hR]; simp) hRnl] at hcl
    obtain ⟨y, hy, he1⟩ := mem_rstripLines (lstripLines ls) cl hcl
    obtain ⟨l, hl, he2⟩ := mem_lstripLines ls y hy
    exact Or.inr ⟨l, hl, by rw [he1, he2]⟩

/-! ## Well-formedness of parse results -/

lemma mem_pyStrip_subset (l : Str) : ∀ c ∈ pyStrip l, c ∈ l := by
  intro c hc
  unfold pyStrip rstripP lstripP at hc
  rw [List.mem_reverse] at hc
  have h1 := (List.dropWhile_sublist isPySpace).subset hc
  rw [List.mem_reverse] at h1
  exact (List.dropWhile_sublist isPySpace).subset h1

/-- The invariants `_parse_suno_lyrics` guarantees for every stored block. -/
def BlockWF (k : Str) (b : LyricBlock) : Prop :=
  pyStrip b.tag = b.tag ∧ tagFormB b.tag = true ∧ normalizeTag b.tag = k ∧
  '\n' ∉ b.tag ∧ pyStrip b.content = b.content ∧
  ∀ cl ∈ splitNl b.content, tagFormB (pyStrip cl) = false

/-- The invariants of the whole parse result. -/
def ParsedWF (d : ParsedDict) : Prop :=
  (dictKeys d).Nodup ∧
  ∀ kv ∈ d, kv.1 ≠ [] ∧ kv.2 ≠ [] ∧ ∀ b ∈ kv.2, BlockWF kv.1 b

/-- Invariant of the pending tag state during the scan. -/
def StInv : Option (Str × Str) → Prop
  | none => True
  | some (k, tl) =>
    pyStrip tl = tl ∧ tagFormB tl = true ∧ normalizeTag tl = k ∧ '\n' ∉ tl

/-- Invariant of the collected content lines during the scan. -/
def CurInv (cur : List Str) : Prop :=
  ∀ l ∈ cur, '\n' ∉ l ∧ tagFormB (pyStrip l) = false

lemma dictAppend_wf (d : ParsedDict) (k : Str) (b : LyricBlock)
    (hd : ParsedWF d) (hk : k ≠ []) (hb : BlockWF k b) :
    ParsedWF (dictAppend d k b) := by
  unfold dictAppend
  by_cases hm : dictMem d k
  · rw [if_pos hm]
    constructor
    · have : dictKeys (d.map (fun p => if p.1 = k then (p.1, p.2 ++ [b]) else p)) =
          dictKeys d := by
        unfold dictKeys
        rw [List.map_map]
        apply List.map_congr_left
        intro p _
        by_cases hp : p.1 = k <;> simp [hp]
      rw [this]
      exact hd.1
    · intro kv hkv
      obtain ⟨p, hp, hfp⟩ := List.mem_map.mp hkv
      by_cases hpk : p.1 = k
      · rw [if_pos hpk] at hfp
        obtain ⟨h1, h2, h3⟩ := hd.2 p hp
        refine ⟨by rw [← hfp]; exact h1, by rw [← hfp]; simp, ?_⟩
        intro b' hb'
        rw [← hfp] at hb' ⊢
        simp only at hb' ⊢
        rcases List.mem_append.mp hb' with hold | hnew
        · exact h3 b' hold
        · rw [List.mem_singleton.mp hnew, hpk]
          exact hb
      · rw [if_neg hpk] at hfp
        rw [← hfp]
        exact hd.2 p hp
  · rw [if_neg hm]
    constructor
    · unfold dictKeys
      rw [List.map_append]
      apply List.Nodup.append hd.1 (by simp)
      intro x hx hx2
      simp only [List.map_cons, List.map_nil, List.mem_singleton] at hx2
      obtain ⟨p, hp, hpx⟩ := List.mem_map.mp hx
      apply hm
      unfold dictMem
      rw [List.any_eq_true]
      exact ⟨p, hp, by simp [hpx, hx2]⟩
    · intro kv hkv
      rcases List.mem_append.mp hkv with hold | hnew
      · exact hd.2 kv hold
      · rw [List.mem_singleton.mp hnew]
        exact ⟨hk, by simp, fun b' hb' => by
          rw [List.mem_singleton.mp hb']
          exact hb⟩

lemma flushBlock_wf (st : Option (Str × Str)) (cur : List Str) (acc : ParsedDict)
    (hacc : ParsedWF acc) (hst : StInv st) (hcur : CurInv cur) :
    ParsedWF (flushBlock st cur acc) := by
  match st with
  | none => exact hacc
  | some (k, tl) =>
    show ParsedWF (if k = [] then acc else
      dictAppend acc k ⟨tl, pyStrip (joinNl cur)⟩)
    by_cases hk : k = []
    · rw [if_pos hk]; exact hacc
    · rw [if_neg hk]
      obtain ⟨h1, h2, h3, h4⟩ := hst
      apply dictAppend_wf acc k _ hacc hk
      refine ⟨h1, h2, h3, h4, pyStrip_idem _, ?_⟩
      intro cl hcl
      rcases mem_splitNl_pyStrip_joinNl cur (fun l hl => (hcur l hl).1) cl
        (by simpa using hcl) with rfl | ⟨l, hl, he⟩
      · rfl
      · rw [he]
        exact (hcur l hl).2

lemma scanLines_wf (lines : List Str) :
    ∀ st cur acc, (∀ l ∈ lines, '\n' ∉ l) → StInv st → CurInv cur → ParsedWF acc →
      ParsedWF (scanLines lines st cur acc) := by
  induction lines with
  | nil =>
    intro st cur acc _ hst hcur hacc
    exact flushBlock_wf st cur acc hacc hst hcur
  | cons line rest ih =>
    intro st cur acc hnl hst hcur hacc
    unfold scanLines
    by_cases htag : tagFormB (pyStrip line) = true
    · rw [if_pos htag]
      apply ih _ _ _ (fun l hl => hnl l (List.mem_cons_of_mem line hl))
      · refine ⟨pyStrip_idem line, htag, rfl, ?_⟩
        intro hmem
        exact hnl line (List.mem_cons_self line rest) (mem_pyStrip_subset line '\n' hmem)
      · intro l hl
        simp at hl
      · exact flushBlock_wf st cur acc hacc hst hcur
    · rw [if_neg htag]
      match st with
      | some p =>
        apply ih _ _ _ (fun l hl => hnl l (List.mem_cons_of_mem line hl)) hst _ hacc
        intro l hl
        rcases List.mem_append.mp hl with hold | hnew
        · exact hcur l hold
        · rw [List.mem_singleton.mp hnew]
          exact ⟨fun hm => hnl line (List.mem_cons_self line rest) hm, by simpa using htag⟩
      | none =>
        exact ih _ _ _ (fun l hl => hnl l (List.mem_cons_of_mem line hl)) hst hcur hacc

/-- `_parse_suno_lyrics` only produces well-formed results. -/
lemma parse_suno_lyrics_wf (text : Str) : ParsedWF (parse_suno_lyrics text) := by
  unfold parse_suno_lyrics
  by_cases he : pyStrip text = []
  · rw [if_pos he]
    exact ⟨List.nodup_nil, fun kv hkv => by simp at hkv⟩
  · rw [if_neg he]
    exact scanLines_wf _ none [] [] (mem_splitNl_no_newline _)
      trivial (fun l hl => by simp at hl) ⟨List.nodup_nil, fun kv hkv => by simp at hkv⟩

lemma dictGet_some_split {β : Type} (d : PyDict β) (k : Str) (v : β)
    (h : dictGet d k = some v) : ∃ A B, d = A ++ (k, v) :: B := by
  induction d with
  | nil => simp [dictGet] at h
  | cons p rest ih =>
    unfold dictGet at h
    by_cases hp : p.1 = k
    · rw [if_pos hp] at h
      obtain ⟨p1, p2⟩ := p
      simp only at hp h
      injection h with h'
      refine ⟨[], rest, ?_⟩
      rw [List.nil_append]
      congr 1
      simp [hp, h']
    · rw [if_neg hp] at h
      obtain ⟨A, B, hAB⟩ := ih h
      exact ⟨p :: A, B, by rw [hAB]; rfl⟩

lemma ParsedWF.block_of_get {d : ParsedDict} (hwf : ParsedWF d) {k : Str}
    {bs : List LyricBlock} (h : dictGet d k = some bs) :
    ∀ b ∈ bs, BlockWF k b := by
  obtain ⟨A, B, hAB⟩ := dictGet_some_split d k bs h
  have hmem : (k, bs) ∈ d := by rw [hAB]; simp
  exact (hwf.2 (k, bs) hmem).2.2

/-! ## Dict lookup helper lemmas -/

lemma dictGet_none_iff {β : Type} (d : PyDict β) (k : Str) :
    dictGet d k = none ↔ dictMem d k = false := by
  induction d with
  | nil => simp [dictGet, dictMem]
  | cons p rest ih =>
    by_cases hp : p.1 = k
    · have h1 : dictGet (p :: rest) k = some p.2 := by
        show (if p.1 = k then some p.2 else dictGet rest k) = some p.2
        rw [if_pos hp]
      have h2 : dictMem (p :: rest) k = true := by
        unfold dictMem
        rw [List.any_eq_true]
        exact ⟨p, List.mem_cons_self p rest, by simp [hp]⟩
      rw [h1, h2]
      simp
    · have h1 : dictGet (p :: rest) k = dictGet rest k := by
        show (if p.1 = k then some p.2 else dictGet rest k) = dictGet rest k
        rw [if_neg hp]
      have h2 : dictMem (p :: rest) k = dictMem rest k := by
        unfold dictMem
        simp [List.any_cons, hp]
      rw [h1, h2, ih]

lemma dictMem_of_get_some {β : Type} (d : PyDict β) (k : Str) (v : β)
    (h : dictGet d k = some v) : dictMem d k = true := by
  by_cases hm : dictMem d k
  · exact hm
  · rw [(dictGet_none_iff d k).mpr (by simpa using hm)] at h
    simp at h

lemma mem_dictKeys_iff {β : Type} (d : PyDict β) (k : Str) :
    k ∈ dictKeys d ↔ dictMem d k = true := by
  unfold dictKeys dictMem
  rw [List.any_eq_true]
  constructor
  · intro h
    obtain ⟨p, hp, hpk⟩ := List.mem_map.mp h
    exact ⟨p, hp, by simp [hpk]⟩
  · intro ⟨p, hp, hpk⟩
    exact List.mem_map.mpr ⟨p, hp, by simpa using hpk⟩

/-! ## C3 — style/end tag exclusion -/

/-- C3 counterexample: the Tag Parser `_parse_suno_lyrics` does return a
block whose normalized tag name is `style`. -/
theorem parse_suno_lyrics_style_counterexample :
    parse_suno_lyrics "[Style]\nfoo".toList =
      [("style".toList, [⟨"[Style]".toList, "foo".toList⟩])] := by decide

/-- C3 (amended): it is `parse_lyrics_to_sections` (the Song-Structure
extraction) that excludes tags whose normalized name is `style` or `end`:
no returned section has such a type. -/
theorem parse_lyrics_to_sections_no_style_end (lyrics_text : Str)
    (sec : SongSection) (h : sec ∈ parse_lyrics_to_sections lyrics_text) :
    lowerStr sec.type ≠ "style".toList ∧ lowerStr sec.type ≠ "end".toList := by
  unfold parse_lyrics_to_sections at h
  by_cases he : pyStrip lyrics_text = []
  · rw [if_pos he] at h
    simp at h
  · rw [if_neg he] at h
    obtain ⟨m, hm, hsome⟩ := List.mem_filterMap.mp h
    simp only at hsome
    by_cases hcond :
        lowerStr (pyTitle (pyStrip (stripNumSuffix (pyStrip m.1)))) = "style".toList ∨
        lowerStr (pyTitle (pyStrip (stripNumSuffix (pyStrip m.1)))) = "end".toList
    · rw [if_pos hcond] at hsome
      simp at hsome
    · rw [if_neg hcond] at hsome
      injection hsome with h'
      push_neg at hcond
      rw [← h']
      exact hcond

/-- Witness for C3 (amended) at a concrete pasted-lyrics text. -/
theorem parse_lyrics_to_sections_no_style_end_witness :
    lowerStr (SongSection.mk "Verse".toList []).type ≠ "style".toList ∧
    lowerStr (SongSection.mk "Verse".toList []).type ≠ "end".toList :=
  parse_lyrics_to_sections_no_style_end "[Verse]\nhello".toList
    ⟨"Verse".toList, []⟩ (by decide)

/-! ## C7 — hook borrows chorus content -/

/-- C7: a Section of type `"Hook"` processed when no `"hook"` block group
exists and the `"chorus"` group still has an unconsumed block borrows that
chorus block: its content is emitted under the Hook tag line, the chorus
counter advances, and `"chorus"` is marked consumed. -/
theorem mergeStep_hook_synonym (text : Str) (st : MergeSt) (sec : SongSection)
    (bs : List LyricBlock) (blk : LyricBlock)
    (htype : sec.type = "Hook".toList)
    (hno : dictGet (parse_suno_lyrics text) "hook".toList = none)
    (hbs : dictGet (parse_suno_lyrics text) "chorus".toList = some bs)
    (hblk : bs[countersGet st.counters "chorus".toList]? = some blk) :
    mergeStep (parse_suno_lyrics text) st sec =
      { lines := st.lines ++ [sectionTagLine sec] ++
          (if blk.content = [] then [] else [blk.content]) ++ [[]],
        counters := dictSet st.counters "chorus".toList
          (countersGet st.counters "chorus".toList + 1),
        consumed := if "chorus".toList ∈ st.consumed then st.consumed
          else st.consumed ++ ["chorus".toList] } := by
  have hkey : lowerStr sec.type = "hook".toList := by rw [htype]; decide
  have hne : parse_suno_lyrics text ≠ [] := by
    intro h0
    rw [h0] at hbs
    simp [dictGet] at hbs
  have hmemHook : dictMem (parse_suno_lyrics text) "hook".toList = false :=
    (dictGet_none_iff _ _).mp hno
  have hmemChorus : dictMem (parse_suno_lyrics text) "chorus".toList = true :=
    dictMem_of_get_some _ _ _ hbs
  have hmk : mergeMatchedKey (parse_suno_lyrics text) (lowerStr sec.type) =
      some "chorus".toList := by
    unfold mergeMatchedKey
    rw [hkey, hmemHook]
    rw [if_neg (by simp), if_pos hne]
    unfold get_nearest_section_type
    rw [show lowerStr "hook".toList = "hook".toList from by decide]
    rw [if_neg (fun hmem => by
      rw [mem_dictKeys_iff] at hmem
      rw [hmem] at hmemHook
      simp at hmemHook)]
    rw [if_pos rfl, if_pos ((mem_dictKeys_iff _ _).mpr hmemChorus)]
  simp only [mergeStep, hmk]
  rw [if_neg (by decide)]
  simp only [hbs, hblk]

/-- Witness for C7 at a concrete state and lyrics text. -/
theorem mergeStep_hook_synonym_witness :
    mergeStep (parse_suno_lyrics "[Chorus]\nla la".toList)
      ⟨[], [], []⟩ ⟨"Hook".toList, []⟩ =
      { lines := ["[Hook]".toList, "la la".toList, []],
        counters := [("chorus".toList, 1)],
        consumed := ["chorus".toList] } := by
  have h := mergeStep_hook_synonym "[Chorus]\nla la".toList ⟨[], [], []⟩
    ⟨"Hook".toList, []⟩ [⟨"[Chorus]".toList, "la la".toList⟩]
    ⟨"[Chorus]".toList, "la la".toList⟩ rfl (by decide) (by decide) (by decide)
  rw [h]
  decide

/-! ## C8 — bridge never borrows -/

/-- C8: a Section of type `"Bridge"` processed against parsed lyrics whose
keys are only `"verse"` and `"chorus"` receives no borrowed content: only
its tag line and the blank separator are emitted, and counters and consumed
keys are untouched. -/
theorem mergeStep_bridge_no_borrow (text : Str) (st : MergeSt) (sec : SongSection)
    (htype : sec.type = "Bridge".toList)
    (hkeys : ∀ k, dictMem (parse_suno_lyrics text) k = true →
      k = "verse".toList ∨ k = "chorus".toList) :
    mergeStep (parse_suno_lyrics text) st sec =
      { lines := st.lines ++ [sectionTagLine sec] ++ [[]],
        counters := st.counters, consumed := st.consumed } := by
  have hkey : lowerStr sec.type = "bridge".toList := by rw [htype]; decide
  have hmemB : dictMem (parse_suno_lyrics text) "bridge".toList = false := by
    cases hb : dictMem (parse_suno_lyrics text) "bridge".toList with
    | false => rfl
    | true =>
      rcases hkeys "bridge".toList hb with h | h <;> simp at h
  have hmk : mergeMatchedKey (parse_suno_lyrics text) (lowerStr sec.type) = none := by
    unfold mergeMatchedKey
    rw [hkey, hmemB]
    rw [if_neg (by simp)]
    by_cases hne : parse_suno_lyrics text ≠ []
    · rw [if_pos hne]
      unfold get_nearest_section_type
      rw [show lowerStr "bridge".toList = "bridge".toList from by decide]
      rw [if_neg (fun hmem => by
        rw [mem_dictKeys_iff] at hmem
        rw [hmem] at hmemB
        simp at hmemB)]
      rw [if_neg (by decide), if_neg (by decide), if_neg (by decide)]
    · rw [if_neg hne]
  simp only [mergeStep, hmk]

/-- Witness for C8 at a concrete state and lyrics text. -/
theorem mergeStep_bridge_no_borrow_witness :
    mergeStep (parse_suno_lyrics "[Verse]\nv\n[Chorus]\nc".toList)
      ⟨[], [], []⟩ ⟨"Bridge".toList, []⟩ =
      { lines := ["[Bridge]".toList, []], counters := [], consumed := [] } := by
  have h := mergeStep_bridge_no_borrow "[Verse]\nv\n[Chorus]\nc".toList
    ⟨[], [], []⟩ ⟨"Bridge".toList, []⟩ rfl (by
      intro k hk
      have hp : parse_suno_lyrics "[Verse]\nv\n[Chorus]\nc".toList =
          [("verse".toList, [⟨"[Verse]".toList, "v".toList⟩]),
           ("chorus".toList, [⟨"[Chorus]".toList, "c".toList⟩])] := by decide
      rw [hp] at hk
      simp only [dictMem, List.any_cons, List.any_nil, Bool.or_eq_true,
        Bool.or_eq_false_iff, decide_eq_true_eq] at hk
      rcases hk with h1 | h1 | h1
      · exact Or.inl h1.symm
      · exact Or.inr h1.symm
      · simp at h1)
  rw [h]
  decide

/-! ## C6 — FIFO consumption support lemmas -/

lemma dictGet_append {β : Type} (d e : PyDict β) (k : Str) :
    dictGet (d ++ e) k =
      match dictGet d k with
      | some v => some v
      | none => dictGet e k := by
  induction d with
  | nil => rfl
  | cons p rest ih =>
    by_cases hp : p.1 = k
    · show (if p.1 = k then some p.2 else dictGet (rest ++ e) k) = _
      rw [if_pos hp]
      show _ = (match (if p.1 = k then some p.2 else dictGet rest k) with
        | some v => some v | none => dictGet e k)
      rw [if_pos hp]
    · show (if p.1 = k then some p.2 else dictGet (rest ++ e) k) = _
      rw [if_neg hp]
      rw [ih]
      show _ = (match (if p.1 = k then some p.2 else dictGet rest k) with
        | some v => some v | none => dictGet e k)
      rw [if_neg hp]

lemma dictGet_map_set_ne {β : Type} (d : PyDict β) (k k' : Str) (v : β)
    (h : k' ≠ k) :
    dictGet (d.map (fun p => if p.1 = k then (p.1, v) else p)) k' = dictGet d k' := by
  induction d with
  | nil => rfl
  | cons p rest ih =>
    simp only [List.map_cons]
    by_cases hp : p.1 = k
    · rw [if_pos hp]
      show (if p.1 = k' then some v else _) = (if p.1 = k' then some p.2 else _)
      rw [if_neg (by rw [hp]; exact fun he => h he.symm),
        if_neg (by rw [hp]; exact fun he => h he.symm)]
      exact ih
    · rw [if_neg hp]
      show (if p.1 = k' then some p.2 else _) = (if p.1 = k' then some p.2 else _)
      by_cases hp' : p.1 = k'
      · rw [if_pos hp', if_pos hp']
      · rw [if_neg hp', if_neg hp']
        exact ih

lemma dictGet_dictSet_ne {β : Type} (d : PyDict β) (k k' : Str) (v : β)
    (h : k' ≠ k) : dictGet (dictSet d k v) k' = dictGet d k' := by
  unfold dictSet
  by_cases hm : dictMem d k
  · rw [if_pos hm]
    exact dictGet_map_set_ne d k k' v h
  · rw [if_neg hm]
    rw [dictGet_append]
    cases hd : dictGet d k' with
    | some w => rfl
    | none =>
      show dictGet [(k, v)] k' = none
      show (if k = k' then some v else dictGet [] k') = none
      rw [if_neg (fun he => h he.symm)]
      rfl

lemma dictGet_dictSet_self {β : Type} (d : PyDict β) (k : Str) (v : β) :
    dictGet (dictSet d k v) k = some v := by
  unfold dictSet
  by_cases hm : dictMem d k
  · rw [if_pos hm]
    exact dictGet_set_self d k v hm
  · rw [if_neg hm]
    rw [dictGet_append_of_not_mem d _ k (by simpa using hm)]
    show (if k = k then some v else dictGet [] k) = some v
    rw [if_pos rfl]

lemma countersGet_dictSet_ne (cs : PyDict Nat) (k k' : Str) (v : Nat)
    (h : k' ≠ k) : countersGet (dictSet cs k v) k' = countersGet cs k' := by
  unfold countersGet
  rw [dictGet_dictSet_ne cs k k' v h]

lemma countersGet_dictSet_self (cs : PyDict Nat) (k : Str) (v : Nat) :
    countersGet (dictSet cs k v) k = v := by
  unfold countersGet
  rw [dictGet_dictSet_self cs k v]
  rfl

lemma char_toLower_toLower (c : Char) : c.toLower.toLower = c.toLower := by
  unfold Char.toLower
  by_cases h : c.toNat ≥ 65 ∧ c.toNat ≤ 90
  · rw [if_pos h]
    have hval : (c.toNat + 32).isValidChar := by
      unfold Nat.isValidChar
      left
      omega
    have htn : (Char.ofNat (c.toNat + 32)).toNat = c.toNat + 32 := by
      unfold Char.ofNat
      rw [dif_pos hval]
      rfl
    rw [if_neg (by rw [htn]; omega)]
  · rw [if_neg h, if_neg h]

lemma lowerStr_idem (s : Str) : lowerStr (lowerStr s) = lowerStr s := by
  unfold lowerStr
  rw [List.map_map]
  apply List.map_congr_left
  intro c _
  exact char_toLower_toLower c

lemma get_nearest_mem_cluster (stp : Str) (avail : List Str) (m : Str)
    (h : get_nearest_section_type stp avail = some m) :
    m = lowerStr stp ∨ m = "chorus".toList ∨ m = "refrain".toList ∨
      m = "hook".toList := by
  unfold get_nearest_section_type at h
  split_ifs at h <;> simp_all

lemma mergeMatchedKey_cases (parsed : ParsedDict) (sk : Str) (m : Str)
    (h : mergeMatchedKey parsed sk = some m) :
    m = lowerStr sk ∨ m = sk ∨ m = "chorus".toList ∨ m = "refrain".toList ∨
      m = "hook".toList := by
  unfold mergeMatchedKey at h
  by_cases h1 : dictMem parsed sk = true
  · rw [if_pos h1] at h
    injection h with h'
    exact Or.inr (Or.inl h'.symm)
  · rw [if_neg h1] at h
    by_cases h2 : parsed ≠ []
    · rw [if_pos h2] at h
      rcases get_nearest_mem_cluster sk (dictKeys parsed) m h with h' | h' | h' | h'
      · exact Or.inl h'
      · exact Or.inr (Or.inr (Or.inl h'))
      · exact Or.inr (Or.inr (Or.inr (Or.inl h')))
      · exact Or.inr (Or.inr (Or.inr (Or.inr h')))
    · rw [if_neg h2] at h
      simp at h

lemma mergeStep_lines_mono (parsed : ParsedDict) (st : MergeSt) (sec : SongSection) :
    ∃ δ, (mergeStep parsed st sec).lines = st.lines ++ δ := by
  cases hmk : mergeMatchedKey parsed (lowerStr sec.type) with
  | none =>
    refine ⟨[sectionTagLine sec] ++ [[]], ?_⟩
    simp only [mergeStep, hmk]
    simp
  | some mk =>
    by_cases hnil : mk = []
    · refine ⟨[sectionTagLine sec] ++ [[]], ?_⟩
      simp only [mergeStep, hmk, if_pos hnil]
      simp
    · cases hbs : dictGet parsed mk with
      | none =>
        refine ⟨[sectionTagLine sec] ++ [[]], ?_⟩
        simp only [mergeStep, hmk, if_neg hnil, hbs]
        simp
      | some blocks =>
        cases hblk : blocks[countersGet st.counters mk]? with
        | none =>
          refine ⟨[sectionTagLine sec] ++ [[]], ?_⟩
          simp only [mergeStep, hmk, if_neg hnil, hbs, hblk]
          simp
        | some blk =>
          refine ⟨[sectionTagLine sec] ++
            (if blk.content = [] then [] else [blk.content]) ++ [[]], ?_⟩
          simp only [mergeStep, hmk, if_neg hnil, hbs, hblk]
          simp

lemma mergeFold_lines_mono (parsed : ParsedDict) (sections : List SongSection) :
    ∀ st : MergeSt, ∃ δ, (sections.foldl (mergeStep parsed) st).lines = st.lines ++ δ := by
  induction sections with
  | nil => intro st; exact ⟨[], by simp⟩
  | cons sec rest ih =>
    intro st
    obtain ⟨δ0, h0⟩ := mergeStep_lines_mono parsed st sec
    obtain ⟨δ1, h1⟩ := ih (mergeStep parsed st sec)
    refine ⟨δ0 ++ δ1, ?_⟩
    show (rest.foldl (mergeStep parsed) (mergeStep parsed st sec)).lines = _
    rw [h1, h0, List.append_assoc]

lemma mergeStep_counters_other (parsed : ParsedDict) (st : MergeSt)
    (sec : SongSection) (k : Str)
    (hk1 : k ≠ lowerStr sec.type) (hk2 : k ≠ "chorus".toList)
    (hk3 : k ≠ "refrain".toList) (hk4 : k ≠ "hook".toList) :
    countersGet (mergeStep parsed st sec).counters k = countersGet st.counters k := by
  cases hmk : mergeMatchedKey parsed (lowerStr sec.type) with
  | none => simp only [mergeStep, hmk]
  | some mk =>
    have hkmk : k ≠ mk := by
      rcases mergeMatchedKey_cases parsed (lowerStr sec.type) mk hmk with
        h' | h' | h' | h' | h'
      · rw [h', lowerStr_idem]
        exact hk1
      · rw [h']
        exact hk1
      · rw [h']
        exact hk2
      · rw [h']
        exact hk3
      · rw [h']
        exact hk4
    by_cases hnil : mk = []
    · simp only [mergeStep, hmk, if_pos hnil]
    · cases hbs : dictGet parsed mk with
      | none => simp only [mergeStep, hmk, if_neg hnil, hbs]
      | some blocks =>
        cases hblk : blocks[countersGet st.counters mk]? with
        | none => simp only [mergeStep, hmk, if_neg hnil, hbs, hblk]
        | some blk =>
          simp only [mergeStep, hmk, if_neg hnil, hbs, hblk]
          exact countersGet_dictSet_ne st.counters mk k _ hkmk

lemma mergeStep_exact_consume (parsed : ParsedDict) (st : MergeSt)
    (sec : SongSection) (bs : List LyricBlock) (blk : LyricBlock)
    (hbs : dictGet parsed (lowerStr sec.type) = some bs)
    (hne : lowerStr sec.type ≠ [])
    (hblk : bs[countersGet st.counters (lowerStr sec.type)]? = some blk) :
    mergeStep parsed st sec =
      { lines := st.lines ++ [sectionTagLine sec] ++
          (if blk.content = [] then [] else [blk.content]) ++ [[]],
        counters := dictSet st.counters (lowerStr sec.type)
          (countersGet st.counters (lowerStr sec.type) + 1),
        consumed := if lowerStr sec.type ∈ st.consumed then st.consumed
          else st.consumed ++ [lowerStr sec.type] } := by
  have hmem := dictMem_of_get_some _ _ _ hbs
  have hmk : mergeMatchedKey parsed (lowerStr sec.type) = some (lowerStr sec.type) := by
    unfold mergeMatchedKey
    rw [hmem, if_pos rfl]
  simp only [mergeStep, hmk, if_neg hne, hbs, hblk]

lemma mergeFold_verse_phase1 (parsed : ParsedDict) (bs : List LyricBlock)
    (b2 : LyricBlock) (s2 : SongSection)
    (hbs : dictGet parsed "verse".toList = some bs)
    (hb2 : bs[1]? = some b2) :
    ∀ (sections : List SongSection) (st : MergeSt),
      sections.filter (fun s => decide (lowerStr s.type = "verse".toList)) = [s2] →
      countersGet st.counters "verse".toList = 1 →
      ∃ mid post, (sections.foldl (mergeStep parsed) st).lines =
        st.lines ++ mid ++ ([sectionTagLine s2] ++
          (if b2.content = [] then [] else [b2.content]) ++ [[]]) ++ post := by
  intro sections
  induction sections with
  | nil => intro st hf _; simp at hf
  | cons sec rest ih =>
    intro st hf hc
    rw [List.filter_cons] at hf
    by_cases hv : lowerStr sec.type = "verse".toList
    · rw [if_pos (by simpa using hv)] at hf
      have hs2 : sec = s2 ∧ rest.filter
          (fun s => decide (lowerStr s.type = "verse".toList)) = [] := by
        have := List.cons.injEq sec _ s2 [] ▸ hf
        exact ⟨this.1, this.2⟩
      have hstep := mergeStep_exact_consume parsed st sec bs b2
        (by rw [hv]; exact hbs) (by rw [hv]; decide) (by rw [hv, hc]; exact hb2)
      obtain ⟨δ, hδ⟩ := mergeFold_lines_mono parsed rest (mergeStep parsed st sec)
      refine ⟨[], δ, ?_⟩
      show (rest.foldl (mergeStep parsed) (mergeStep parsed st sec)).lines = _
      rw [hδ, hstep, hs2.1]
      simp [List.append_assoc]
    · rw [if_neg (by simpa using hv)] at hf
      have hc' : countersGet (mergeStep parsed st sec).counters "verse".toList = 1 := by
        rw [mergeStep_counters_other parsed st sec _ (fun he => hv he.symm)
          (by decide) (by decide) (by decide)]
        exact hc
      obtain ⟨mid, post, hmp⟩ := ih (mergeStep parsed st sec) hf hc'
      obtain ⟨δ0, h0⟩ := mergeStep_lines_mono parsed st sec
      refine ⟨δ0 ++ mid, post, ?_⟩
      show (rest.foldl (mergeStep parsed) (mergeStep parsed st sec)).lines = _
      rw [hmp, h0]
      simp [List.append_assoc]

lemma mergeFold_verse_phase0 (parsed : ParsedDict) (bs : List LyricBlock)
    (b1 b2 : LyricBlock) (s1 s2 : SongSection)
    (hbs : dictGet parsed "verse".toList = some bs)
    (hb1 : bs[0]? = some b1) (hb2 : bs[1]? = some b2) :
    ∀ (sections : List SongSection) (st : MergeSt),
      sections.filter (fun s => decide (lowerStr s.type = "verse".toList)) = [s1, s2] →
      countersGet st.counters "verse".toList = 0 →
      ∃ pre mid post, (sections.foldl (mergeStep parsed) st).lines =
        st.lines ++ pre ++ ([sectionTagLine s1] ++
          (if b1.content = [] then [] else [b1.content]) ++ [[]]) ++ mid ++
          ([sectionTagLine s2] ++
          (if b2.content = [] then [] else [b2.content]) ++ [[]]) ++ post := by
  intro sections
  induction sections with
  | nil => intro st hf _; simp at hf
  | cons sec rest ih =>
    intro st hf hc
    rw [List.filter_cons] at hf
    by_cases hv : lowerStr sec.type = "verse".toList
    · rw [if_pos (by simpa using hv)] at hf
      have hs1 : sec = s1 ∧ rest.filter
          (fun s => decide (lowerStr s.type = "verse".toList)) = [s2] := by
        have := List.cons.injEq sec _ s1 [s2] ▸ hf
        exact ⟨this.1, this.2⟩
      have hstep := mergeStep_exact_consume parsed st sec bs b1
        (by rw [hv]; exact hbs) (by rw [hv]; decide) (by rw [hv, hc]; exact hb1)
      have hc' : countersGet (mergeStep parsed st sec).counters "verse".toList = 1 := by
        rw [hstep]
        show countersGet (dictSet st.counters (lowerStr sec.type)
          (countersGet st.counters (lowerStr sec.type) + 1)) "verse".toList = 1
        rw [hv, hc, countersGet_dictSet_self]
      obtain ⟨mid, post, hmp⟩ := mergeFold_verse_phase1 parsed bs b2 s2 hbs hb2
        rest (mergeStep parsed st sec) hs1.2 hc'
      refine ⟨[], mid, post, ?_⟩
      show (rest.foldl (mergeStep parsed) (mergeStep parsed st sec)).lines = _
      rw [hmp, hstep, hs1.1]
      simp [List.append_assoc]
    · rw [if_neg (by simpa using hv)] at hf
      have hc' : countersGet (mergeStep parsed st sec).counters "verse".toList = 0 := by
        rw [mergeStep_counters_other parsed st sec _ (fun he => hv he.symm)
          (by decide) (by decide) (by decide)]
        exact hc
      obtain ⟨pre, mid, post, hmp⟩ := ih (mergeStep parsed st sec) hf hc'
      obtain ⟨δ0, h0⟩ := mergeStep_lines_mono parsed st sec
      refine ⟨δ0 ++ pre, mid, post, ?_⟩
      show (rest.foldl (mergeStep parsed) (mergeStep parsed st sec)).lines = _
      rw [hmp, h0]
      simp [List.append_assoc]

/-! ## C6 — FIFO consumption of two verse blocks -/

/-- C6: when the structural sections contain exactly two Verse-typed
sections `s1` then `s2` (in that order), and the pasted lyrics parse to
exactly two `[Verse]` blocks with contents A then B (source order), the
merged output gives `s1` body A and `s2` body B — per-key FIFO
consumption. -/
theorem merge_fifo_two_verses (text : Str) (sections : List SongSection)
    (s1 s2 : SongSection) (b1 b2 : LyricBlock)
    (hfil : sections.filter (fun s => decide (lowerStr s.type = "verse".toList)) =
      [s1, s2])
    (hbs : dictGet (parse_suno_lyrics text) "verse".toList = some [b1, b2])
    (htag1 : b1.tag = "[Verse]".toList) (htag2 : b2.tag = "[Verse]".toList)
    (hneq : b1.content ≠ b2.content) :
    ∃ pre mid post, (mergeSections (parse_suno_lyrics text) sections).lines =
      pre ++ ([sectionTagLine s1] ++
        (if b1.content = [] then [] else [b1.content]) ++ [[]]) ++ mid ++
        ([sectionTagLine s2] ++
        (if b2.content = [] then [] else [b2.content]) ++ [[]]) ++ post := by
  obtain ⟨pre, mid, post, h⟩ := mergeFold_verse_phase0 (parse_suno_lyrics text)
    [b1, b2] b1 b2 s1 s2 hbs rfl rfl sections ⟨[], [], []⟩ hfil rfl
  exact ⟨pre, mid, post, by
    show (sections.foldl (mergeStep (parse_suno_lyrics text)) ⟨[], [], []⟩).lines = _
    rw [h]
    simp⟩

/-- Witness for C6 at a concrete structure and lyrics text. -/
theorem merge_fifo_two_verses_witness :
    ∃ pre mid post,
      (mergeSections (parse_suno_lyrics "[Verse]\nAAA\n[Verse]\nBBB".toList)
        [⟨"Verse".toList, []⟩, ⟨"Verse".toList, "x".toList⟩]).lines =
      pre ++ ([sectionTagLine ⟨"Verse".toList, []⟩] ++
        (if ("AAA".toList : Str) = [] then [] else ["AAA".toList]) ++ [[]]) ++ mid ++
        ([sectionTagLine ⟨"Verse".toList, "x".toList⟩] ++
        (if ("BBB".toList : Str) = [] then [] else ["BBB".toList]) ++ [[]]) ++ post :=
  merge_fifo_two_verses "[Verse]\nAAA\n[Verse]\nBBB".toList
    [⟨"Verse".toList, []⟩, ⟨"Verse".toList, "x".toList⟩]
    ⟨"Verse".toList, []⟩ ⟨"Verse".toList, "x".toList⟩
    ⟨"[Verse]".toList, "AAA".toList⟩ ⟨"[Verse]".toList, "BBB".toList⟩
    (by decide) (by decide) rfl rfl (by decide)

/-! ## C2 — leftover blocks: structure of the final Lyrics output -/

/-- A line that is empty or ends in a non-whitespace character (so the final
whole-text `strip` can only ever swallow whole empty lines). -/
def ElemOk (l : Str) : Prop :=
  l = [] ∨ ∃ c, l.getLast? = some c ∧ isPySpace c = false

lemma sectionTagLine_elemok (sec : SongSection) : ElemOk (sectionTagLine sec) := by
  right
  refine ⟨']', ?_, by decide⟩
  unfold sectionTagLine
  by_cases hi : pyStrip sec.instruments ≠ []
  · rw [if_pos hi]
    rw [show '[' :: (sec.type ++ ':' :: ' ' :: pyStrip sec.instruments ++ [']']) =
      ('[' :: (sec.type ++ ':' :: ' ' :: pyStrip sec.instruments)) ++ [']'] by simp]
    exact List.getLast?_concat _
  · rw [if_neg hi]
    rw [show '[' :: (sec.type ++ [']']) = ('[' :: sec.type) ++ [']'] by simp]
    exact List.getLast?_concat _

lemma build_style_header_elemok (genre key mode tempo time_sig : Str) :
    ElemOk (build_style_header genre key mode tempo time_sig) := by
  right
  refine ⟨')', ?_, by decide⟩
  unfold build_style_header
  exact List.getLast?_concat _

lemma stripped_content_elemok (c : Str) (h : pyStrip c = c) : ElemOk c := by
  cases hc : c.getLast? with
  | none =>
    left
    cases c with
    | nil => rfl
    | cons a t => simp at hc
  | some ch =>
    right
    exact ⟨ch, hc, pyStrip_getLast_not_ws c ch (by rw [h]; exact hc)⟩

lemma blockWF_tag_elemok {k : Str} {b : LyricBlock} (h : BlockWF k b) :
    ElemOk b.tag := by
  right
  refine ⟨']', ?_, by decide⟩
  have := h.2.1
  unfold tagFormB at this
  rw [Bool.and_eq_true] at this
  have h2 := this.2
  rw [beq_iff_eq] at h2
  exact h2

lemma mergeStep_lines_elemok (parsed : ParsedDict) (st : MergeSt)
    (sec : SongSection) (hwf : ParsedWF parsed)
    (hst : ∀ l ∈ st.lines, ElemOk l) :
    ∀ l ∈ (mergeStep parsed st sec).lines, ElemOk l := by
  have htag := sectionTagLine_elemok sec
  cases hmk : mergeMatchedKey parsed (lowerStr sec.type) with
  | none =>
    simp only [mergeStep, hmk]
    intro l hl
    rcases List.mem_append.mp hl with hl' | hl'
    · rcases List.mem_append.mp hl' with hl'' | hl''
      · exact hst l hl''
      · rw [List.mem_singleton.mp hl'']; exact htag
    · rw [List.mem_singleton.mp hl']; exact Or.inl rfl
  | some mk =>
    by_cases hnil : mk = []
    · simp only [mergeStep, hmk, if_pos hnil]
      intro l hl
      rcases List.mem_append.mp hl with hl' | hl'
      · rcases List.mem_append.mp hl' with hl'' | hl''
        · exact hst l hl''
        · rw [List.mem_singleton.mp hl'']; exact htag
      · rw [List.mem_singleton.mp hl']; exact Or.inl rfl
    · cases hbs : dictGet parsed mk with
      | none =>
        simp only [mergeStep, hmk, if_neg hnil, hbs]
        intro l hl
        rcases List.mem_append.mp hl with hl' | hl'
        · rcases List.mem_append.mp hl' with hl'' | hl''
          · exact hst l hl''
          · rw [List.mem_singleton.mp hl'']; exact htag
        · rw [List.mem_singleton.mp hl']; exact Or.inl rfl
      | some blocks =>
        cases hblk : blocks[countersGet st.counters mk]? with
        | none =>
          simp only [mergeStep, hmk, if_neg hnil, hbs, hblk]
          intro l hl
          rcases List.mem_append.mp hl with hl' | hl'
          · rcases List.mem_append.mp hl' with hl'' | hl''
            · exact hst l hl''
            · rw [List.mem_singleton.mp hl'']; exact htag
          · rw [List.mem_singleton.mp hl']; exact Or.inl rfl
        | some blk =>
          simp only [mergeStep, hmk, if_neg hnil, hbs, hblk]
          intro l hl
          have hbwf : BlockWF mk blk :=
            hwf.block_of_get hbs blk (List.getElem?_mem hblk)
          rcases List.mem_append.mp hl with hl' | hl'
          · rcases List.mem_append.mp hl' with hl'' | hl''
            · rcases List.mem_append.mp hl'' with h3 | h3
              · exact hst l h3
              · rw [List.mem_singleton.mp h3]; exact htag
            · by_cases hce : blk.content = []
              · rw [if_pos hce] at hl''
                simp at hl''
              · rw [if_neg hce] at hl''
                rw [List.mem_singleton.mp hl'']
                exact stripped_content_elemok blk.content hbwf.2.2.2.2.1
          · rw [List.mem_singleton.mp hl']; exact Or.inl rfl

lemma mergeFold_lines_elemok (parsed : ParsedDict) (sections : List SongSection)
    (hwf : ParsedWF parsed) :
    ∀ st : MergeSt, (∀ l ∈ st.lines, ElemOk l) →
      ∀ l ∈ (sections.foldl (mergeStep parsed) st).lines, ElemOk l := by
  induction sections with
  | nil => intro st hst; exact hst
  | cons sec rest ih =>
    intro st hst
    exact ih (mergeStep parsed st sec) (mergeStep_lines_elemok parsed st sec hwf hst)

lemma leftoverLines_elemok (parsed : ParsedDict) (counters : PyDict Nat)
    (consumed : List Str) (hwf : ParsedWF parsed) :
    ∀ l ∈ leftoverLines parsed counters consumed, ElemOk l := by
  intro l hl
  unfold leftoverLines at hl
  obtain ⟨kv, hkv, hmem⟩ := List.mem_flatMap.mp hl
  obtain ⟨b, hb, hbl⟩ := List.mem_flatMap.mp hmem
  have hbmem : b ∈ kv.2 := by
    by_cases hc : kv.1 ∈ consumed
    · rw [if_pos hc] at hb
      exact (List.drop_subset _ _) hb
    · rw [if_neg hc] at hb
      exact hb
  have hbwf : BlockWF kv.1 b := (hwf.2 kv hkv).2.2 b hbmem
  unfold blockOutLines at hbl
  rcases List.mem_cons.mp hbl with rfl | hbl'
  · exact blockWF_tag_elemok hbwf
  · rcases List.mem_append.mp hbl' with h3 | h3
    · by_cases hce : b.content = []
      · rw [if_pos hce] at h3
        simp at h3
      · rw [if_neg hce] at h3
        rw [List.mem_singleton.mp h3]
        exact stripped_content_elemok b.content hbwf.2.2.2.2.1
    · rw [List.mem_singleton.mp h3]
      exact Or.inl rfl

lemma rdropE_ne_nil (ls : List Str) (c : Char) (r : Str)
    (h1 : ls.head? = some (c :: r)) : rdropE ls ≠ [] := by
  intro h0
  have hall := List.rdropWhile_eq_nil_iff.mp h0
  have hmem : (c :: r) ∈ ls := by
    cases ls with
    | nil => simp at h1
    | cons x t =>
      simp only [List.head?_cons, Option.some_inj] at h1
      rw [← h1]
      exact List.mem_cons_self x t
  have := hall (c :: r) hmem
  simp at this

lemma rdropE_getLast_of_elemok (ls : List Str) (h : ∀ l ∈ ls, ElemOk l) :
    ∀ m, (rdropE ls).getLast? = some m →
      ∃ c, m.getLast? = some c ∧ isPySpace c = false := by
  intro m hm
  have hne : rdropE ls ≠ [] := by
    intro h0
    rw [h0] at hm
    simp at hm
  have hmem : m ∈ ls := by
    obtain ⟨t, ht⟩ := List.rdropWhile_prefix (fun l => l.isEmpty) ls
    have hmm : m ∈ rdropE ls := List.mem_of_mem_getLast? (Option.mem_def.mpr hm)
    unfold rdropE at hmm
    rw [← ht]
    exact List.mem_append.mpr (Or.inl hmm)
  unfold rdropE at hm hne
  have hlast := List.rdropWhile_last_not (fun l => l.isEmpty) ls hne
  rw [List.getLast?_eq_getLast _ hne] at hm
  injection hm with h'
  have hmne : m ≠ [] := by
    intro h0
    apply hlast
    rw [h', h0]
    rfl
  rcases h m hmem with h0 | ⟨c, hc1, hc2⟩
  · exact absurd h0 hmne
  · exact ⟨c, hc1, hc2⟩

lemma parse_if_eq (suno_lyrics : Str) :
    (if suno_lyrics ≠ [] then parse_suno_lyrics suno_lyrics else []) =
      parse_suno_lyrics suno_lyrics := by
  by_cases h : suno_lyrics ≠ []
  · rw [if_pos h]
  · rw [if_neg h]
    push_neg at h
    rw [h]
    rfl

lemma build_style_header_cons (genre key mode tempo time_sig : Str) :
    ∃ r, build_style_header genre key mode tempo time_sig = '[' :: r := by
  unfold build_style_header
  exact ⟨_, rfl⟩

/-- C2 (amended): in the merged Lyrics output the final text is exactly the
style header, then all structural section lines, then the leftover block
lines, with only trailing blank lines removed by the final strip; and every
block group whose key was never consumed by any structural Section appears
in the leftover part verbatim, contiguously (grouped by key), in its
original within-key order. -/
theorem build_lyrics_leftover_structure
    (genre key mode tempo time_sig : Str) (sections : List SongSection)
    (suno_lyrics : Str) (lyric_template : Str) (templates : PyDict Str)
    (hT : lyric_template = "None".toList) :
    splitNl (build_lyrics_output genre key mode tempo time_sig sections
        suno_lyrics lyric_template templates) =
      (rdropE ([build_style_header genre key mode tempo time_sig, []] ++
        (mergeSections (parse_suno_lyrics suno_lyrics) sections).lines ++
        leftoverLines (parse_suno_lyrics suno_lyrics)
          (mergeSections (parse_suno_lyrics suno_lyrics) sections).counters
          (mergeSections (parse_suno_lyrics suno_lyrics) sections).consumed)).flatMap
        splitNl ∧
    (∀ k bs, dictGet (parse_suno_lyrics suno_lyrics) k = some bs →
      k ∉ (mergeSections (parse_suno_lyrics suno_lyrics) sections).consumed →
      ∃ pre post, leftoverLines (parse_suno_lyrics suno_lyrics)
          (mergeSections (parse_suno_lyrics suno_lyrics) sections).counters
          (mergeSections (parse_suno_lyrics suno_lyrics) sections).consumed =
        pre ++ bs.flatMap blockOutLines ++ post) := by
  have hwf := parse_suno_lyrics_wf suno_lyrics
  constructor
  · unfold build_lyrics_output
    rw [if_neg (by
      intro ⟨_, hne, _⟩
      exact hne hT)]
    rw [parse_if_eq suno_lyrics]
    set parsed := parse_suno_lyrics suno_lyrics with hparsed
    set ms := mergeSections parsed sections with hms
    set L := [build_style_header genre key mode tempo time_sig, []] ++
      ms.lines ++ leftoverLines parsed ms.counters ms.consumed with hL
    obtain ⟨r0, hr0⟩ := build_style_header_cons genre key mode tempo time_sig
    have hhead : L.head? = some ('[' :: r0) := by
      rw [hL]
      simp [hr0]
    have helems : ∀ l ∈ L, ElemOk l := by
      intro l hl
      rw [hL] at hl
      rcases List.mem_append.mp hl with h1 | h1
      · rcases List.mem_append.mp h1 with h2 | h2
        · rcases List.mem_cons.mp h2 with rfl | h3
          · exact build_style_header_elemok genre key mode tempo time_sig
          · rw [List.mem_singleton.mp h3]
            exact Or.inl rfl
        · exact mergeFold_lines_elemok parsed sections hwf ⟨[], [], []⟩
            (fun l' hl' => by simp at hl') l h2
      · exact leftoverLines_elemok parsed ms.counters ms.consumed hwf l h1
    rw [pyStrip_joinNl_rdropE L '[' r0 hhead (by decide)
      (rdropE_getLast_of_elemok L helems)]
    exact splitNl_flat (rdropE L) (rdropE_ne_nil L '[' r0 hhead)
  · intro k bs hget hcons
    set ms := mergeSections (parse_suno_lyrics suno_lyrics) sections with hms
    obtain ⟨A, B, hAB⟩ := dictGet_some_split _ k bs hget
    refine ⟨(A.flatMap (fun kv =>
      (if kv.1 ∈ ms.consumed
        then kv.2.drop (countersGet ms.counters kv.1)
        else kv.2).flatMap blockOutLines)),
      (B.flatMap (fun kv =>
      (if kv.1 ∈ ms.consumed
        then kv.2.drop (countersGet ms.counters kv.1)
        else kv.2).flatMap blockOutLines)), ?_⟩
    unfold leftoverLines
    rw [hAB]
    simp only [List.flatMap_append, List.flatMap_cons]
    rw [if_neg hcons]
    simp [List.append_assoc]

/-- Witness for C2 (amended): a never-consumed `[Intro]` group appears
contiguously in the leftover lines. -/
theorem build_lyrics_leftover_structure_witness :
    ∃ pre post,
      leftoverLines (parse_suno_lyrics "[Intro]\nA".toList)
        (mergeSections (parse_suno_lyrics "[Intro]\nA".toList) []).counters
        (mergeSections (parse_suno_lyrics "[Intro]\nA".toList) []).consumed =
      pre ++ [LyricBlock.mk "[Intro]".toList "A".toList].flatMap blockOutLines ++ post :=
  (build_lyrics_leftover_structure "Jazz".toList "None".toList "None".toList
    "None".toList "4/4".toList [] "[Intro]\nA".toList "None".toList [] rfl).2
    "intro".toList [⟨"[Intro]".toList, "A".toList⟩] (by decide) (by decide)

/-- Concrete input for the C2 counterexample: blocks of two different keys
interleaved in the pasted source (`A` intro, `B` outro, `C` intro). -/
def c2cexText : Str := "[Intro]\nA\n[Outro]\nB\n[Intro]\nC".toList

/-- C2 counterexample: with no structural sections, all three blocks are
leftovers; in the source `B` precedes `C`, but the output groups the two
`[Intro]` blocks together, so `C` appears before `B` — the leftover blocks
are NOT emitted in their original relative source order when keys
interleave. -/
theorem build_lyrics_leftover_order_counterexample :
    "B".toList ∈ splitNl (build_lyrics_output "Jazz".toList [] [] [] [] []
        c2cexText "None".toList []) ∧
    "C".toList ∈ splitNl (build_lyrics_output "Jazz".toList [] [] [] [] []
        c2cexText "None".toList []) ∧
    List.indexOf "C".toList (splitNl (build_lyrics_output "Jazz".toList [] [] [] [] []
        c2cexText "None".toList [])) <
      List.indexOf "B".toList (splitNl (build_lyrics_output "Jazz".toList [] [] [] [] []
        c2cexText "None".toList [])) := by
  refine ⟨by decide, by decide, by decide⟩

/-! ## C5 — parse/serialize round trip: serialization -/

/-- The serialized line sequence: each block contributes its tag line
followed by its content lines. -/
def blockSerLines (b : LyricBlock) : List Str := b.tag :: splitNl b.content

/-- The serialized lines of a whole parse result, blocks in stored order. -/
def serialLines (d : ParsedDict) : List Str :=
  d.flatMap (fun kv => kv.2.flatMap blockSerLines)

/-- Serialization per §8 of the spec: re-emit each block as its tag line
followed by its content (`[tag]\ncontent` pairs), joined by newlines.
Modelled from the spec: the spec's `serialize` in the idempotent-parse
property; the repository has no serializer of its own. -/
def serializeParsed (d : ParsedDict) : Str := joinNl (serialLines d)

lemma splitNl_getLast_of_stripped (c : Str) (h : pyStrip c = c) (hne : c ≠ []) :
    ∃ m ch, (splitNl c).getLast? = some m ∧ m ≠ [] ∧ m.getLast? = some ch ∧
      isPySpace ch = false := by
  have hSne := splitNl_ne_nil c
  obtain ⟨chc, hchc⟩ : ∃ chc, c.getLast? = some chc := by
    cases hg : c.getLast? with
    | none => rw [List.getLast?_eq_none_iff] at hg; exact absurd hg hne
    | some z => exact ⟨z, rfl⟩
  have hchw : isPySpace chc = false := pyStrip_getLast_not_ws c chc (by rw [h]; exact hchc)
  set m := (splitNl c).getLast hSne with hm
  have hmsome : (splitNl c).getLast? = some m := List.getLast?_eq_getLast _ hSne
  have hdecomp : (splitNl c).dropLast ++ [m] = splitNl c :=
    List.dropLast_concat_getLast hSne
  have hmne : m ≠ [] := by
    intro h0
    have hc : c = joinNl ((splitNl c).dropLast ++ [m]) := by
      rw [hdecomp, joinNl_splitNl]
    cases hdl : (splitNl c).dropLast with
    | nil =>
      rw [hdl, h0] at hc
      simp only [List.nil_append] at hc
      exact hne (by rw [hc]; rfl)
    | cons x xs =>
      rw [hdl, h0, joinNl_append (x :: xs) [[]] (by simp) (by simp)] at hc
      have : c.getLast? = some '\n' := by
        rw [hc]
        rw [show joinNl (x :: xs) ++ '\n' :: joinNl [[]] =
          (joinNl (x :: xs) ++ ['\n']) ++ joinNl [[]] by simp]
        rw [show joinNl ([[]] : List Str) = [] from rfl, List.append_nil]
        exact List.getLast?_concat _
      rw [hchc] at this
      injection this with h'
      rw [h'] at hchw
      simp [isPySpace] at hchw
  have hlast : c.getLast? = m.getLast? := by
    conv_lhs => rw [← joinNl_splitNl c]
    exact joinNl_getLast (splitNl c) m hmsome hmne
  refine ⟨m, chc, hmsome, hmne, ?_, hchw⟩
  rw [← hlast]
  exact hchc

lemma rdropE_append (x y : List Str) :
    rdropE (x ++ y) = if rdropE y = [] then rdropE x else x ++ rdropE y := by
  unfold rdropE List.rdropWhile
  rw [List.reverse_append, List.dropWhile_append]
  by_cases hy : (y.reverse.dropWhile (fun l => l.isEmpty)).isEmpty
  · rw [if_pos hy]
    have : y.reverse.dropWhile (fun l => l.isEmpty) = [] := List.isEmpty_iff.mp hy
    rw [if_pos (by rw [this]; rfl)]
  · rw [if_neg hy]
    have hne : (y.reverse.dropWhile (fun l => l.isEmpty)).reverse ≠ [] := by
      intro h0
      apply hy
      rw [List.reverse_eq_nil_iff] at h0
      rw [h0]
      rfl
    rw [if_neg hne]
    simp

lemma blockSerLines_rdropE (k : Str) (b : LyricBlock) (h : BlockWF k b) :
    rdropE (blockSerLines b) ≠ [] ∧
    ∀ m, (rdropE (blockSerLines b)).getLast? = some m →
      ∃ c, m.getLast? = some c ∧ isPySpace c = false := by
  have htag : ∃ r, b.tag = '[' :: r := by
    have := h.2.1
    unfold tagFormB at this
    rw [Bool.and_eq_true] at this
    have h1 := this.1
    rw [beq_iff_eq] at h1
    cases hb : b.tag with
    | nil => rw [hb] at h1; simp at h1
    | cons x r =>
      rw [hb] at h1
      simp only [List.head?_cons, Option.some_inj] at h1
      exact ⟨r, by rw [h1]⟩
  have htagend : b.tag.getLast? = some ']' := by
    have := h.2.1
    unfold tagFormB at this
    rw [Bool.and_eq_true] at this
    have h2 := this.2
    rwa [beq_iff_eq] at h2
  by_cases hc : b.content = []
  · have hshape : blockSerLines b = [b.tag] ++ [[]] := by
      unfold blockSerLines
      rw [hc]
      rfl
    have hr : rdropE (blockSerLines b) = [b.tag] := by
      rw [hshape, rdropE_append]
      rw [if_pos (by rfl)]
      unfold rdropE List.rdropWhile
      obtain ⟨r, hr⟩ := htag
      rw [hr]
      rfl
    rw [hr]
    refine ⟨by simp, ?_⟩
    intro m hm
    simp only [List.getLast?_singleton, Option.some_inj] at hm
    rw [← hm]
    exact ⟨']', htagend, by decide⟩
  · obtain ⟨m, ch, hmsome, hmne, hmlast, hchw⟩ :=
      splitNl_getLast_of_stripped b.content h.2.2.2.2.1 hc
    have hself : rdropE (blockSerLines b) = blockSerLines b := by
      unfold rdropE
      rw [List.rdropWhile_eq_self_iff]
      intro hl
      have hgl : (blockSerLines b).getLast? = some m := by
        unfold blockSerLines
        rw [show b.tag :: splitNl b.content = [b.tag] ++ splitNl b.content by rfl,
          List.getLast?_append_of_ne_nil _ (splitNl_ne_nil b.content)]
        exact hmsome
      rw [List.getLast?_eq_getLast _ hl] at hgl
      injection hgl with h'
      rw [h']
      simpa using hmne
  -- last of blockSerLines is m
    rw [hself]
    refine ⟨by unfold blockSerLines; simp, ?_⟩
    intro m' hm'
    have hgl : (blockSerLines b).getLast? = some m := by
      unfold blockSerLines
      rw [show b.tag :: splitNl b.content = [b.tag] ++ splitNl b.content by rfl,
        List.getLast?_append_of_ne_nil _ (splitNl_ne_nil b.content)]
      exact hmsome
    rw [hgl] at hm'
    injection hm' with h'
    rw [← h']
    exact ⟨ch, hmlast, hchw⟩

lemma blocks_flat_decomp (bs : List LyricBlock) (hne : bs ≠ []) :
    ∃ front b, b ∈ bs ∧ bs.flatMap blockSerLines = front ++ blockSerLines b := by
  induction bs with
  | nil => exact absurd rfl hne
  | cons b1 rest ih =>
    cases rest with
    | nil => exact ⟨[], b1, List.mem_cons_self b1 [], by simp⟩
    | cons b2 r2 =>
      obtain ⟨front', b, hb, hfb⟩ := ih (by simp)
      refine ⟨blockSerLines b1 ++ front', b, List.mem_cons_of_mem b1 hb, ?_⟩
      rw [List.flatMap_cons, hfb, List.append_assoc]

lemma serialLines_decomp (d : ParsedDict) (hwf : ParsedWF d) (hne : d ≠ []) :
    ∃ front k b, BlockWF k b ∧ serialLines d = front ++ blockSerLines b := by
  induction d with
  | nil => exact absurd rfl hne
  | cons kv d' ih =>
    by_cases hd' : d' = []
    · subst hd'
      have hbs : kv.2 ≠ [] := (hwf.2 kv (List.mem_cons_self kv [])).2.1
      obtain ⟨front, b, hb, hfb⟩ := blocks_flat_decomp kv.2 hbs
      refine ⟨front, kv.1, b, (hwf.2 kv (List.mem_cons_self kv [])).2.2 b hb, ?_⟩
      unfold serialLines
      rw [List.flatMap_cons]
      simp [hfb]
    · have hwf' : ParsedWF d' := by
        constructor
        · have := hwf.1
          unfold dictKeys at this ⊢
          rw [List.map_cons] at this
          exact (List.nodup_cons.mp this).2
        · intro kv' hkv'
          exact hwf.2 kv' (List.mem_cons_of_mem kv hkv')
      obtain ⟨front', k, b, hbwf, hfb⟩ := ih hwf' hd'
      refine ⟨kv.2.flatMap blockSerLines ++ front', k, b, hbwf, ?_⟩
      unfold serialLines at hfb ⊢
      rw [List.flatMap_cons, hfb, List.append_assoc]

/-! ## C5 — scanner lemmas -/

lemma flushBlock_append_empty (st : Option (Str × Str)) (cur : List Str)
    (acc : ParsedDict) : flushBlock st (cur ++ [[]]) acc = flushBlock st cur acc := by
  cases st with
  | none => rfl
  | some p =>
    obtain ⟨k, tl⟩ := p
    show (if k = [] then acc else
        dictAppend acc k ⟨tl, pyStrip (joinNl (cur ++ [[]]))⟩) =
      (if k = [] then acc else dictAppend acc k ⟨tl, pyStrip (joinNl cur)⟩)
    have hstr : pyStrip (joinNl (cur ++ [[]])) = pyStrip (joinNl cur) := by
      cases cur with
      | nil => rfl
      | cons x t =>
        rw [joinNl_append (x :: t) [[]] (by simp) (by simp)]
        rw [show joinNl ([[]] : List Str) = [] from rfl]
        rw [show joinNl (x :: t) ++ '\n' :: [] = joinNl (x :: t) ++ ['\n'] from rfl]
        exact pyStrip_append_ws _ _ (by
          intro ch hch
          rw [List.mem_singleton.mp hch]
          rfl)
    rw [hstr]

lemma scanLines_empties (E : List Str) (hE : ∀ e ∈ E, e = []) :
    ∀ st cur acc, scanLines E st cur acc = flushBlock st cur acc := by
  induction E with
  | nil => intro st cur acc; rfl
  | cons e E' ih =>
    intro st cur acc
    have he : e = [] := hE e (List.mem_cons_self e E')
    subst he
    show (match st with
      | some p => scanLines E' (some p) (cur ++ [[]]) acc
      | none => scanLines E' none cur acc) = flushBlock st cur acc
    cases st with
    | some p =>
      show scanLines E' (some p) (cur ++ [[]]) acc = flushBlock (some p) cur acc
      rw [ih (fun e he => hE e (List.mem_cons_of_mem [] he)) (some p) (cur ++ [[]]) acc]
      exact flushBlock_append_empty (some p) cur acc
    | none =>
      show scanLines E' none cur acc = flushBlock none cur acc
      exact ih (fun e he => hE e (List.mem_cons_of_mem [] he)) none cur acc

lemma scanLines_append_empties (M E : List Str) (hE : ∀ e ∈ E, e = []) :
    ∀ st cur acc, scanLines (M ++ E) st cur acc = scanLines M st cur acc := by
  induction M with
  | nil =>
    intro st cur acc
    rw [List.nil_append]
    exact scanLines_empties E hE st cur acc
  | cons line M' ih =>
    intro st cur acc
    by_cases htag : tagFormB (pyStrip line) = true
    · show scanLines (line :: (M' ++ E)) st cur acc = scanLines (line :: M') st cur acc
      unfold scanLines
      rw [if_pos htag, if_pos htag]
      exact ih _ _ _
    · show scanLines (line :: (M' ++ E)) st cur acc = scanLines (line :: M') st cur acc
      unfold scanLines
      rw [if_neg htag, if_neg htag]
      cases st with
      | some p => exact ih _ _ _
      | none => exact ih _ _ _

lemma scanLines_nontag_front (cls : List Str)
    (hcls : ∀ cl ∈ cls, tagFormB (pyStrip cl) = false) :
    ∀ (rest : List Str) (p : Str × Str) (cur : List Str) (acc : ParsedDict),
      scanLines (cls ++ rest) (some p) cur acc =
        scanLines rest (some p) (cur ++ cls) acc := by
  induction cls with
  | nil => intro rest p cur acc; simp
  | cons cl cls' ih =>
    intro rest p cur acc
    have hc : tagFormB (pyStrip cl) = false := hcls cl (List.mem_cons_self cl cls')
    show scanLines (cl :: (cls' ++ rest)) (some p) cur acc = _
    simp only [scanLines, hc, Bool.false_eq_true, if_false]
    rw [ih (fun c hc => hcls c (List.mem_cons_of_mem cl hc)) rest p (cur ++ [cl]) acc]
    have : (cur ++ [cl]) ++ cls' = cur ++ cl :: cls' := by simp
    rw [this]

lemma scanLines_block (k : Str) (b : LyricBlock) (hb : BlockWF k b)
    (rest : List Str) (st : Option (Str × Str)) (cur : List Str)
    (acc : ParsedDict) :
    scanLines (blockSerLines b ++ rest) st cur acc =
      scanLines rest (some (k, b.tag)) (splitNl b.content)
        (flushBlock st cur acc) := by
  show scanLines (b.tag :: (splitNl b.content ++ rest)) st cur acc = _
  simp only [scanLines]
  rw [hb.1, if_pos hb.2.1, hb.2.2.1]
  rw [scanLines_nontag_front (splitNl b.content) hb.2.2.2.2.2 rest (k, b.tag) []
    (flushBlock st cur acc)]
  rw [List.nil_append]

lemma flushBlock_block (k : Str) (b : LyricBlock) (hb : BlockWF k b)
    (hk : k ≠ []) (acc : ParsedDict) :
    flushBlock (some (k, b.tag)) (splitNl b.content) acc = dictAppend acc k b := by
  show (if k = [] then acc else
      dictAppend acc k ⟨b.tag, pyStrip (joinNl (splitNl b.content))⟩) = _
  rw [if_neg hk, joinNl_splitNl, hb.2.2.2.2.1]

lemma scanLines_pairs (pairs : List (Str × LyricBlock))
    (hp : ∀ p ∈ pairs, BlockWF p.1 p.2 ∧ p.1 ≠ []) :
    ∀ st cur acc,
      scanLines (pairs.flatMap (fun p => blockSerLines p.2)) st cur acc =
        pairs.foldl (fun a p => dictAppend a p.1 p.2) (flushBlock st cur acc) := by
  induction pairs with
  | nil => intro st cur acc; rfl
  | cons p ps ih =>
    intro st cur acc
    rw [List.flatMap_cons]
    have hpwf := hp p (List.mem_cons_self p ps)
    rw [scanLines_block p.1 p.2 hpwf.1 _ st cur acc]
    rw [ih (fun q hq => hp q (List.mem_cons_of_mem p hq)) (some (p.1, p.2.tag))
      (splitNl p.2.content) (flushBlock st cur acc)]
    rw [flushBlock_block p.1 p.2 hpwf.1 hpwf.2 (flushBlock st cur acc)]
    rfl

/-! ## C5 — rebuilding the dict from the block stream -/

lemma dictAppend_mem_last (acc : ParsedDict) (k : Str) (xs : List LyricBlock)
    (b : LyricBlock) (h : dictMem acc k = false) :
    dictAppend (acc ++ [(k, xs)]) k b = acc ++ [(k, xs ++ [b])] := by
  have hnotk : ∀ p ∈ acc, p.1 ≠ k := by
    intro p hp hpk
    have : dictMem acc k = true := by
      unfold dictMem
      rw [List.any_eq_true]
      exact ⟨p, hp, by simp [hpk]⟩
    rw [h] at this
    exact absurd this (by simp)
  have hmem : dictMem (acc ++ [(k, xs)]) k = true := by
    unfold dictMem
    rw [List.any_eq_true]
    exact ⟨(k, xs), by simp, by simp⟩
  show (if dictMem (acc ++ [(k, xs)]) k then _ else _) = _
  rw [if_pos hmem, List.map_append]
  have hmap : acc.map (fun p => if p.1 = k then (p.1, p.2 ++ [b]) else p) = acc := by
    calc acc.map (fun p => if p.1 = k then (p.1, p.2 ++ [b]) else p)
        = acc.map id := List.map_congr_left (fun p hp => by
          rw [if_neg (hnotk p hp)]; rfl)
      _ = acc := List.map_id acc
  rw [hmap]
  simp

lemma group_fold (bs : List LyricBlock) (k : Str) (acc : ParsedDict)
    (h : dictMem acc k = false) :
    ∀ xs, List.foldl (fun a b => dictAppend a k b) (acc ++ [(k, xs)]) bs =
      acc ++ [(k, xs ++ bs)] := by
  induction bs with
  | nil => intro xs; simp
  | cons b bs' ih =>
    intro xs
    rw [List.foldl_cons, dictAppend_mem_last acc k xs b h, ih (xs ++ [b])]
    simp

/-- The blocks of the parse result, flattened as (key, block) pairs in
stored order. -/
def allBlocks (d : ParsedDict) : List (Str × LyricBlock) :=
  d.flatMap (fun kv => kv.2.map (fun b => (kv.1, b)))

lemma pairs_fold_rebuild (d : ParsedDict) :
    ∀ acc : ParsedDict, (dictKeys d).Nodup → (∀ kv ∈ d, kv.2 ≠ []) →
      (∀ kv ∈ d, dictMem acc kv.1 = false) →
      List.foldl (fun a p => dictAppend a p.1 p.2) acc (allBlocks d) = acc ++ d := by
  induction d with
  | nil => intro acc _ _ _; simp [allBlocks]
  | cons kv d' ih =>
    intro acc hnodup hne hmem
    have hnd := hnodup
    unfold dictKeys at hnd
    rw [List.map_cons] at hnd
    have hnd2 := List.nodup_cons.mp hnd
    rw [show allBlocks (kv :: d') = List.map (fun b => (kv.1, b)) kv.2 ++ allBlocks d'
      from rfl]
    rw [List.foldl_append, List.foldl_map]
    have hmemkv : dictMem acc kv.1 = false := hmem kv (List.mem_cons_self kv d')
    cases hbs : kv.2 with
    | nil => exact absurd hbs (hne kv (List.mem_cons_self kv d'))
    | cons b1 bs =>
      have hstep1 : dictAppend acc kv.1 b1 = acc ++ [(kv.1, [b1])] := by
        show (if dictMem acc kv.1 then _ else _) = _
        rw [if_neg (by rw [hmemkv]; simp)]
      have hpart1 : List.foldl (fun a b => dictAppend a ((kv.1, b)).1 ((kv.1, b)).2)
          acc (b1 :: bs) = acc ++ [(kv.1, b1 :: bs)] := by
        show List.foldl (fun a b => dictAppend a kv.1 b) acc (b1 :: bs) = _
        rw [List.foldl_cons, hstep1, group_fold bs kv.1 acc hmemkv [b1]]
        rfl
      rw [hpart1]
      have hmem' : ∀ kv' ∈ d', dictMem (acc ++ [(kv.1, b1 :: bs)]) kv'.1 = false := by
        intro kv' hkv'
        have h1 : dictMem acc kv'.1 = false := hmem kv' (List.mem_cons_of_mem kv hkv')
        have h2 : kv.1 ≠ kv'.1 := by
          intro heq
          exact hnd2.1 (heq ▸ List.mem_map_of_mem Prod.fst hkv')
        unfold dictMem at h1 ⊢
        rw [List.any_append, h1, Bool.false_or]
        simp [h2]
      have := ih (acc ++ [(kv.1, b1 :: bs)]) hnd2.2
        (fun kv' hkv' => (hne kv' (List.mem_cons_of_mem kv hkv'))) hmem'
      rw [this, List.append_assoc]
      rw [← hbs]
      rfl

lemma serialLines_eq_pairs (d : ParsedDict) :
    serialLines d = (allBlocks d).flatMap (fun p => blockSerLines p.2) := by
  unfold serialLines allBlocks
  conv_rhs => rw [List.bind_assoc]
  simp only [List.flatMap_map]

/-! ## C5 — shape facts about the serialized lines -/

lemma tag_head_bracket (k : Str) (b : LyricBlock) (h : BlockWF k b) :
    ∃ r, b.tag = '[' :: r := by
  have h1 := h.2.1
  unfold tagFormB at h1
  rw [Bool.and_eq_true] at h1
  have h2 := h1.1
  rw [beq_iff_eq] at h2
  cases hb : b.tag with
  | nil => rw [hb] at h2; simp at h2
  | cons x r =>
    rw [hb] at h2
    simp only [List.head?_cons, Option.some_inj] at h2
    exact ⟨r, by rw [h2]⟩

lemma serialLines_head (d : ParsedDict) (hwf : ParsedWF d) (hne : d ≠ []) :
    ∃ r, (serialLines d).head? = some ('[' :: r) := by
  cases d with
  | nil => exact absurd rfl hne
  | cons kv d' =>
    have hkv := hwf.2 kv (List.mem_cons_self kv d')
    cases hbs : kv.2 with
    | nil => exact absurd hbs hkv.2.1
    | cons b bs =>
      have hb : BlockWF kv.1 b := hkv.2.2 b (by rw [hbs]; exact List.mem_cons_self b bs)
      obtain ⟨r, hr⟩ := tag_head_bracket kv.1 b hb
      refine ⟨r, ?_⟩
      unfold serialLines
      rw [List.flatMap_cons, hbs, List.flatMap_cons]
      show ((blockSerLines b ++ bs.flatMap blockSerLines) ++ _).head? = _
      rw [show blockSerLines b = b.tag :: splitNl b.content from rfl, hr]
      simp

lemma serialLines_no_newline (d : ParsedDict) (hwf : ParsedWF d) :
    ∀ l ∈ serialLines d, '\n' ∉ l := by
  intro l hl
  unfold serialLines at hl
  rw [List.mem_flatMap] at hl
  obtain ⟨kv, hkv, hl2⟩ := hl
  rw [List.mem_flatMap] at hl2
  obtain ⟨b, hb, hl3⟩ := hl2
  have hbwf := (hwf.2 kv hkv).2.2 b hb
  unfold blockSerLines at hl3
  rcases List.mem_cons.mp hl3 with rfl | hl4
  · exact hbwf.2.2.2.1
  · exact mem_splitNl_no_newline b.content l hl4

lemma serialLines_rdropE_last (d : ParsedDict) (hwf : ParsedWF d) (hne : d ≠ []) :
    ∀ m, (rdropE (serialLines d)).getLast? = some m →
      ∃ c2, m.getLast? = some c2 ∧ isPySpace c2 = false := by
  obtain ⟨front, k, b, hbwf, hfb⟩ := serialLines_decomp d hwf hne
  obtain ⟨hbne, hblast⟩ := blockSerLines_rdropE k b hbwf
  intro m hm
  rw [hfb, rdropE_append, if_neg hbne,
    List.getLast?_append_of_ne_nil _ hbne] at hm
  exact hblast m hm

lemma rdropE_decomp (ls : List Str) :
    rdropE ls ++ ls.rtakeWhile (fun l => l.isEmpty) = ls := by
  unfold rdropE List.rdropWhile List.rtakeWhile
  rw [← List.reverse_append, List.takeWhile_append_dropWhile, List.reverse_reverse]

lemma rdropE_head (ls : List Str) (x : Str) (h : ls.head? = some x)
    (hne : rdropE ls ≠ []) : (rdropE ls).head? = some x := by
  cases hM : rdropE ls with
  | nil => exact absurd hM hne
  | cons y ys =>
    have hd := rdropE_decomp ls
    rw [hM] at hd
    rw [← hd] at h
    simp only [List.cons_append, List.head?_cons, Option.some_inj] at h
    rw [h]
    rfl

/-! ## C5 — the round trip -/

lemma parse_serialize_of_wf (d : ParsedDict) (hwf : ParsedWF d) :
    parse_suno_lyrics (serializeParsed d) = d := by
  by_cases hd : d = []
  · subst hd
    rfl
  · obtain ⟨r, hLhead⟩ := serialLines_head d hwf hd
    have hcws : isPySpace '[' = false := by decide
    have hlast := serialLines_rdropE_last d hwf hd
    have hstrip : pyStrip (joinNl (serialLines d)) = joinNl (rdropE (serialLines d)) :=
      pyStrip_joinNl_rdropE (serialLines d) '[' r hLhead hcws hlast
    have hMne : rdropE (serialLines d) ≠ [] := rdropE_ne_nil (serialLines d) '[' r hLhead
    have hMhead : (rdropE (serialLines d)).head? = some ('[' :: r) :=
      rdropE_head (serialLines d) _ hLhead hMne
    have hguard : pyStrip (serializeParsed d) ≠ [] := by
      show pyStrip (joinNl (serialLines d)) ≠ []
      rw [hstrip]
      cases hM : rdropE (serialLines d) with
      | nil => exact absurd hM hMne
      | cons m ms =>
        rw [hM] at hMhead
        have hm : m = '[' :: r := by simpa using hMhead
        intro h0
        have hh := joinNl_head m ms '[' r hm
        rw [h0] at hh
        simp at hh
    have hL_no_nl := serialLines_no_newline d hwf
    have hM_no_nl : ∀ l ∈ rdropE (serialLines d), '\n' ∉ l := by
      intro l hl
      apply hL_no_nl
      rw [← rdropE_decomp (serialLines d)]
      exact List.mem_append_left _ hl
    have hsplit : splitNl (pyStrip (serializeParsed d)) = rdropE (serialLines d) := by
      show splitNl (pyStrip (joinNl (serialLines d))) = rdropE (serialLines d)
      rw [hstrip]
      exact splitNl_joinNl_id (rdropE (serialLines d)) hMne hM_no_nl
    have hEempty : ∀ e ∈ (serialLines d).rtakeWhile (fun l => l.isEmpty), e = [] := by
      intro e he
      have := List.mem_rtakeWhile_imp he
      exact List.isEmpty_iff.mp this
    have hscan : scanLines (rdropE (serialLines d)) none [] [] =
        scanLines (serialLines d) none [] [] := by
      conv_rhs => rw [← rdropE_decomp (serialLines d)]
      exact (scanLines_append_empties (rdropE (serialLines d)) _ hEempty none [] []).symm
    have hpairs : ∀ p ∈ allBlocks d, BlockWF p.1 p.2 ∧ p.1 ≠ [] := by
      intro p hp
      unfold allBlocks at hp
      rw [List.mem_flatMap] at hp
      obtain ⟨kv, hkv, hp2⟩ := hp
      rw [List.mem_map] at hp2
      obtain ⟨b, hb, hpb⟩ := hp2
      have hkvwf := hwf.2 kv hkv
      rw [← hpb]
      exact ⟨hkvwf.2.2 b hb, hkvwf.1⟩
    have hrebuild : List.foldl (fun a p => dictAppend a p.1 p.2) [] (allBlocks d) = d :=
      pairs_fold_rebuild d [] hwf.1 (fun kv hkv => (hwf.2 kv hkv).2.1) (fun kv _ => rfl)
    unfold parse_suno_lyrics
    rw [if_neg hguard, hsplit, hscan, serialLines_eq_pairs d,
      scanLines_pairs (allBlocks d) hpairs none [] []]
    exact hrebuild

/-- C5: §8's idempotent-parse property: re-serializing a parse result as
`[tag]` lines followed by their content and parsing again returns the same
structure: `parse(serialize(parse(text))) = parse(text)` for every input. -/
theorem parse_serialize_roundtrip (text : Str) :
    parse_suno_lyrics (serializeParsed (parse_suno_lyrics text)) = parse_suno_lyrics text :=
  parse_serialize_of_wf (parse_suno_lyrics text) (parse_suno_lyrics_wf text)
